import Mathlib

/-!
# Column-state hook of the grid (useColumns): shallow embedding

This file embeds the column-state hook of the data grid (hydration of column
definitions, derivation of visible columns and their metadata, the lookup map,
patch updates, the column API accessors and the post-sort reaction) as Lean
definitions, and proves the behavioural claims about them.

JavaScript values that a column field can hold are modelled with `JVal`:
a key of an object is either absent (`Option.none` at the outer level) or
present with a value that is `undefined`, `null` or a proper value.  The
distinction matters because an object spread `{...a, ...b}` lets a key that is
present in `b` with value `undefined` overwrite the key of `a`, while an absent
key does not.  Loose comparisons (`x != null`) treat `undefined` and `null`
alike; strict equality (`===`) distinguishes them.  Widths are modelled as
`Nat`; the result of JS arithmetic is an `Option Nat` where `none` stands for
`NaN` (arithmetic on an `undefined` width).
-/

set_option autoImplicit false

namespace GridColumns

/-- A JavaScript value of underlying type `α`: `undefined`, `null` or a value. -/
inductive JVal (α : Type) where
  | undef : JVal α
  | null : JVal α
  | val : α → JVal α
deriving DecidableEq, Repr

/-- Reading a key of an object: an absent key reads as `undefined`. -/
def jread {α : Type} (o : Option (JVal α)) : JVal α :=
  o.getD JVal.undef

/-- Loose nullish test: `x == null` in JS is true exactly for `undefined` and `null`. -/
def JVal.isNullish {α : Type} : JVal α → Bool
  | JVal.undef => true
  | JVal.null => true
  | JVal.val _ => false

/-- JS truthiness of a boolean-valued field (`undefined` and `null` are falsy). -/
def JVal.truthy : JVal Bool → Bool
  | JVal.val b => b
  | _ => false

/-- JS numeric coercion for addition: `undefined` gives `NaN` (modelled `none`),
`null` coerces to `0`. -/
def JVal.toNum : JVal Nat → Option Nat
  | JVal.undef => none
  | JVal.null => some 0
  | JVal.val n => some n

/-- Addition of JS numbers where `none` stands for `NaN` (absorbing). -/
def nanAdd (a b : Option Nat) : Option Nat :=
  match a, b with
  | some x, some y => some (x + y)
  | _, _ => none

/-- JS property-key coercion of a field value used when indexing an object. -/
def JVal.toKey : JVal String → String
  | JVal.undef => "undefined"
  | JVal.null => "null"
  | JVal.val s => s

/-- A sort direction (`'asc' | 'desc'`). -/
inductive SortDir where
  | asc : SortDir
  | desc : SortDir
deriving DecidableEq, Repr

/-- A column definition.  Every key is optional (`ColDef` doubles as the type of
partial column patches, exactly as in the source where `ColDef[]` is also the
type of `columnUpdates`).  The outer `Option` records whether the key is
present on the object. -/
structure ColDef where
  field : Option (JVal String) := none
  width : Option (JVal Nat) := none
  hide : Option (JVal Bool) := none
  sortDirection : Option (JVal SortDir) := none
  sortIndex : Option (JVal Nat) := none
  type : Option (JVal String) := none
deriving DecidableEq, Repr

instance : Inhabited ColDef := ⟨{}⟩

/-- The object spread `{...a, ...b}`: every key present on `b` (even with value
`undefined` or `null`) overwrites the key of `a`. -/
def mergeColDef (a b : ColDef) : ColDef where
  field := b.field <|> a.field
  width := b.width <|> a.width
  hide := b.hide <|> a.hide
  sortDirection := b.sortDirection <|> a.sortDirection
  sortIndex := b.sortIndex <|> a.sortIndex
  type := b.type <|> a.type

/-- Grid-level options consumed by the hook. -/
structure GridOptions where
  checkboxSelection : Bool := false
deriving DecidableEq, Repr

/-- One entry of a sort model: a column identifier and a direction. -/
structure SortItem where
  colId : String
  sort : JVal SortDir
deriving DecidableEq, Repr

/-- The part of the grid API the hook consumes: `getSortModel` may be absent. -/
structure GridApiModel where
  getSortModel : Option (List SortItem) := none
deriving DecidableEq, Repr

/-- `apiRef`: its `current` may be `null`/`undefined` (modelled `none`). -/
structure GridApiRef where
  current : Option GridApiModel := none
deriving DecidableEq, Repr

/-- Derived metadata of the visible columns.  `none` in a position or in the
total stands for `NaN` (a visible column with an `undefined` width). -/
structure ColumnsMeta where
  totalWidth : Option Nat
  positions : List (Option Nat)
deriving DecidableEq, Repr

/-- The lookup object, keyed by the (string-coerced) field of each column;
modelled as a JS object: an association list where updating an existing key
replaces it in place and a new key is appended. -/
abbrev Lookup : Type := List (String × ColDef)

/-- Whether the object has a property named `k`. -/
def keyMem (m : Lookup) (k : String) : Bool :=
  List.any m fun p => decide (p.1 = k)

/-- Replace the value stored under an existing key `k`, keeping its position
(JS objects keep the insertion position of an updated property). -/
def replaceKey (m : Lookup) (k : String) (v : ColDef) : Lookup :=
  List.map (fun p => if p.1 = k then (k, v) else p) m

/-- JS object property write `m[k] = v`: replaces the value of an existing key
in place, appends a fresh key. -/
def objInsert (m : Lookup) (k : String) (v : ColDef) : Lookup :=
  if keyMem m k then replaceKey m k v else m ++ [(k, v)]

/-- JS object property read `m[k]` (gives `undefined`, i.e. `none`, for an
absent key; keys of a JS object are unique, so reading the first entry is
exact). -/
def objGet : Lookup → String → Option ColDef
  | [], _ => none
  | p :: t, k => if p.1 = k then some p.2 else objGet t k

/-- The internal column state committed by the hook. -/
structure InternalColumns where
  all : List ColDef
  visible : List ColDef
  meta : ColumnsMeta
  lookup : Lookup
  hasColumns : Bool
  hasVisibleColumns : Bool
deriving DecidableEq

/-- Modelled from the spec: `getColDef` is imported from `../../models` and is
not part of this excerpt.  The spec says hydration merges "a type-indexed
default definition with the caller's explicit fields", so we model the default
definition as carrying a default width and the type tag, and defining no field
identifier of its own. -/
def getColDef (t : JVal String) : ColDef :=
  { width := some (JVal.val 100), type := some t }

/-- Modelled from the spec: the reserved field identifier of the synthetic
checkbox-selection column ("its field identifier is reserved and never
collides with caller-supplied identifiers"). -/
def checkboxFieldName : String := "checkbox_selection"

/-- Modelled from the spec: `checkboxSelectionColDef` is imported from
`../../models` and is not part of this excerpt.  The spec calls it "a fixed
checkbox-selection column definition" prepended ahead of all others; we model
it with the reserved field identifier and a fixed width, not hidden. -/
def checkboxSelectionColDef : ColDef :=
  { field := some (JVal.val checkboxFieldName), width := some (JVal.val 48),
    hide := some (JVal.val false), type := some (JVal.val "checkboxSelection") }

/-- `columns.map(c => ({ ...getColDef(c.type), ...c }))` of `hydrateColumns`. -/
def mapWithDefaults (columns : List ColDef) : List ColDef :=
  List.map (fun c => mergeColDef (getColDef (jread c.type)) c) columns

/-- `if (options.checkboxSelection) { mappedCols = [checkboxSelectionColDef, ...mappedCols] }`. -/
def withCheckbox (options : GridOptions) (mappedCols : List ColDef) : List ColDef :=
  if options.checkboxSelection then checkboxSelectionColDef :: mappedCols else mappedCols

/-- The first sort block of `hydrateColumns`: `sortedCols.forEach((c, idx) => {
if (c.sortIndex == null) { c.sortIndex = idx + 1 } })` where `sortedCols` is
the sublist of columns with a non-nullish `sortDirection` (mutated through
aliases, so the effect lands on the mapped columns themselves); `idx` counts
the sorted columns seen so far. -/
def assignMissingSortIndexes : Nat → List ColDef → List ColDef
  | _, [] => []
  | idx, c :: rest =>
    if (jread c.sortDirection).isNullish then
      c :: assignMissingSortIndexes idx rest
    else
      (if (jread c.sortIndex).isNullish then
        { c with sortIndex := some (JVal.val (idx + 1)) }
      else c) :: assignMissingSortIndexes (idx + 1) rest

/-- JS `Array.prototype.findIndex`: index of the first element satisfying the
predicate; the JS result `-1` is modelled as `none`. -/
def jsFindIndex {α : Type} (p : α → Bool) : List α → Option Nat
  | [] => none
  | a :: l => if p a then some 0 else (jsFindIndex p l).map (· + 1)

/-- `mappedCols.find(mc => mc.field === colId)` followed by an in-place
mutation: only the first matching column is updated. -/
def updateFirstMatching (p : ColDef → Bool) (f : ColDef → ColDef) : List ColDef → List ColDef
  | [] => []
  | c :: rest => if p c then f c :: rest else c :: updateFirstMatching p f rest

/-- The mutation applied to a column matched by sort-model entry `item` at
position `idx`: `col.sortDirection = c.sort; col.sortIndex =
sortedCols.length > 1 ? idx + 1 : undefined`. -/
def applySortEntry (modelLength : Nat) (idx : Nat) (item : SortItem) (col : ColDef) : ColDef :=
  { col with sortDirection := some item.sort,
             sortIndex := some (if 1 < modelLength then JVal.val (idx + 1) else JVal.undef) }

/-- The second sort block of `hydrateColumns`: for each entry of the retrieved
sort model (in order, with its index), find the first column whose field
strictly equals the entry's `colId` and set its sort direction and index. -/
def applySortModelToCols (sortedCols : List SortItem) (mappedCols : List ColDef) : List ColDef :=
  List.foldl
    (fun cols p =>
      updateFirstMatching (fun mc => decide (jread mc.field = JVal.val p.2.colId))
        (applySortEntry sortedCols.length p.1 p.2) cols)
    mappedCols sortedCols.enum

/-- `hydrateColumns(columns, options, logger, apiRef)`: merge defaults, prepend
the checkbox column when enabled, then (only when `apiRef.current` is set)
assign missing sort indexes among sorted columns, and finally re-apply the
sort model when `apiRef.current.getSortModel` exists. -/
def hydrateColumns (columns : List ColDef) (options : GridOptions) (apiRef : GridApiRef) :
    List ColDef :=
  let mappedCols := withCheckbox options (mapWithDefaults columns)
  let mappedCols :=
    if 0 < (List.filter (fun c => !(jread c.sortDirection).isNullish) mappedCols).length
        ∧ apiRef.current.isSome then
      assignMissingSortIndexes 0 mappedCols
    else mappedCols
  match apiRef.current with
  | none => mappedCols
  | some api =>
    match api.getSortModel with
    | none => mappedCols
    | some sortedCols => applySortModelToCols sortedCols mappedCols

/-- `toLookup`: fold all columns into a field-keyed object; last write wins. -/
def toLookup (allColumns : List ColDef) : Lookup :=
  List.foldl (fun lookup col => objInsert lookup (jread col.field).toKey col) [] allColumns

/-- The predicate of `filterVisible`: `c.field != null && !c.hide`. -/
def visibleColumn (c : ColDef) : Bool :=
  !(jread c.field).isNullish && !(jread c.hide).truthy

/-- `filterVisible`: `allColumns.filter(c => c.field != null && !c.hide)`. -/
def filterVisible (allColumns : List ColDef) : List ColDef :=
  List.filter visibleColumn allColumns

/-- `toMeta`: reduce over the visible columns, pushing the running total before
adding each column's width (`curCol.width!`, NaN-propagating when absent). -/
def toMeta (visibleColumns : List ColDef) : ColumnsMeta :=
  let acc := List.foldl
    (fun (acc : Option Nat × List (Option Nat)) curCol =>
      (nanAdd acc.1 (jread curCol.width).toNum, acc.2 ++ [acc.1]))
    (some 0, []) visibleColumns
  { totalWidth := acc.1, positions := acc.2 }

/-- `resetState`: recompute the whole internal column state. -/
def resetState (columns : List ColDef) (options : GridOptions) (apiRef : GridApiRef) :
    InternalColumns :=
  let all := hydrateColumns columns options apiRef
  let visible := filterVisible all
  let meta := toMeta visible
  let lookup := toLookup all
  { all := all, visible := visible, meta := meta, lookup := lookup,
    hasColumns := decide (0 < all.length),
    hasVisibleColumns := decide (0 < visible.length) }

/-- One iteration of the `columnUpdates.forEach` loop of
`getUpdatedColumnState`: find the column by strict field equality, shallow-merge
the patch onto it, write it back into `all` and into the lookup.  When
`findIndex` returns `-1`, the JS write `all[-1] = ...` creates a non-index
property that the subsequent array spread drops, so `all` is unchanged, while
the lookup write still lands with `{...undefined, ...newColumn}`, a copy of the
patch itself. -/
def applyColumnUpdate (st : InternalColumns) (newColumn : ColDef) : InternalColumns :=
  match jsFindIndex (fun c => decide (jread c.field = jread newColumn.field)) st.all with
  | some index =>
    let columnUpdated := mergeColDef (st.all[index]?.getD {}) newColumn
    { st with all := st.all.set index columnUpdated,
              lookup := objInsert st.lookup (jread newColumn.field).toKey columnUpdated }
  | none =>
    { st with lookup := objInsert st.lookup (jread newColumn.field).toKey newColumn }

/-- `getUpdatedColumnState`: apply each patch in order, then re-derive the
visible columns, the metadata and the has-columns flags. -/
def getUpdatedColumnState (state : InternalColumns) (columnUpdates : List ColDef) :
    InternalColumns :=
  let newState := List.foldl applyColumnUpdate state columnUpdates
  let visible := filterVisible newState.all
  let meta := toMeta visible
  { newState with
    visible := visible, meta := meta,
    hasColumns := decide (0 < newState.all.length),
    hasVisibleColumns := decide (0 < visible.length) }

/-- `getColumnFromField`: `stateRef.current.lookup[field]`. -/
def getColumnFromField (state : InternalColumns) (field : String) : Option ColDef :=
  objGet state.lookup field

/-- `getColumnIndex`: `stateRef.current.visible.findIndex(c => c.field === field)`
(-1 when no visible column matches). -/
def getColumnIndex (state : InternalColumns) (field : String) : Int :=
  match jsFindIndex (fun c => decide (jread c.field = JVal.val field)) state.visible with
  | some i => (i : Int)
  | none => -1

/-- `getColumnPosition`: `meta.positions[getColumnIndex(field)]` — a JS array
read at a negative or out-of-range index gives `undefined` (outer `none`). -/
def getColumnPosition (state : InternalColumns) (field : String) : Option (Option Nat) :=
  let index := getColumnIndex state field
  if index < 0 then none else state.meta.positions[index.toNat]?

/-- Events emitted on the api's event bus that the hook can produce. -/
inductive GridEvent where
  | columnsUpdated : List ColDef → GridEvent
deriving DecidableEq, Repr

/-- `updateState(newState, emit)`: emits `COLUMNS_UPDATED` with the full column
list exactly when `apiRef.current` is set and `emit` is true.  (The state
commit itself — `setInternalColumns` and `stateRef.current = newState` — is the
returned state.) -/
def updateStateEvents (apiRef : GridApiRef) (newState : InternalColumns) (emit : Bool) :
    List GridEvent :=
  if apiRef.current.isSome && emit then [GridEvent.columnsUpdated newState.all] else []

/-- The `useEffect` body that runs when the input columns or options change:
`resetState` then `updateState(newState)` with the default `emit = true`. -/
def columnsChangedEffect (columns : List ColDef) (options : GridOptions) (apiRef : GridApiRef) :
    InternalColumns × List GridEvent :=
  let newState := resetState columns options apiRef
  (newState, updateStateEvents apiRef newState true)

/-- `updateColumn`: one patch, committed with `emit = false`. -/
def updateColumn (apiRef : GridApiRef) (state : InternalColumns) (col : ColDef) :
    InternalColumns × List GridEvent :=
  let newState := getUpdatedColumnState state [col]
  (newState, updateStateEvents apiRef newState false)

/-- `updateColumns`: many patches, committed with `emit = false`. -/
def updateColumns (apiRef : GridApiRef) (state : InternalColumns) (cols : List ColDef) :
    InternalColumns × List GridEvent :=
  let newState := getUpdatedColumnState state cols
  (newState, updateStateEvents apiRef newState false)

/-- The state the hook carries across sort notifications: the committed column
state (`stateRef`) and the fields annotated by the previous reaction
(`sortedColFieldsRef`). -/
structure ColumnsHookState where
  internal : InternalColumns
  sortedColFields : List String
deriving DecidableEq

/-- `onSortedColumns(sortModel)`: synthesize clear-patches for the previously
annotated fields, then set-patches for the new model (priority `idx + 1` only
when the model has more than one entry, else `undefined`), remember the new
model's fields, and apply everything as one `updateColumns` call when any patch
exists.  The trailing `rafUpdate()` only schedules a coalesced re-render and
emits nothing. -/
def onSortedColumns (apiRef : GridApiRef) (sortModel : List SortItem) (s : ColumnsHookState) :
    ColumnsHookState × List GridEvent :=
  let clearCols : List ColDef := List.map
    (fun f => { field := some (JVal.val f), sortDirection := some JVal.null,
                sortIndex := some JVal.undef })
    s.sortedColFields
  let setCols : List ColDef := List.map
    (fun p => { field := some (JVal.val p.2.colId), sortDirection := some p.2.sort,
                sortIndex := some (if 1 < sortModel.length then JVal.val (p.1 + 1)
                                   else JVal.undef) })
    sortModel.enum
  let updatedCols := clearCols ++ setCols
  if 0 < updatedCols.length then
    let r := updateColumns apiRef s.internal updatedCols
    ({ internal := r.1, sortedColFields := List.map SortItem.colId sortModel }, r.2)
  else
    ({ internal := s.internal, sortedColFields := List.map SortItem.colId sortModel }, [])

/-!
## Spec-side helper definitions

These are used to *state* the claims; they are not part of the embedded code.
-/

/-- The string field identifiers actually present (as strings) on a column
list, in order. -/
def presentFields (cols : List ColDef) : List String :=
  cols.filterMap fun c =>
    match jread c.field with
    | JVal.val s => some s
    | _ => none

/-- The numeric width of a column whose width key holds a number (`0` as a
don't-care for the other cases; the claims only use it under a hypothesis that
the width is a number). -/
def widthNat (c : ColDef) : Nat :=
  match jread c.width with
  | JVal.val n => n
  | _ => 0

/-- Number of columns with a non-nullish sort direction strictly before
index `i`. -/
def sortedCountBefore (cols : List ColDef) (i : Nat) : Nat :=
  (List.filter (fun c => !(jread c.sortDirection).isNullish) (cols.take i)).length

/-- What the first sort block of hydration does to the column at index `i` of
`cols`: a column carrying a sort direction but no sort index receives the
1-based index of its position among the direction-carrying columns. -/
def phase1At (cols : List ColDef) (i : Nat) (c : ColDef) : ColDef :=
  if !(jread c.sortDirection).isNullish && (jread c.sortIndex).isNullish then
    { c with sortIndex := some (JVal.val (sortedCountBefore cols i + 1)) }
  else c

/-- What the sort-model re-application does to a single column: if some entry
of the model names the column's field, the column's direction is set from that
entry and its index from the entry's position (1-based) when the model has
more than one entry, `undefined` otherwise. -/
def phase2At (sm : List SortItem) (c : ColDef) : ColDef :=
  match List.find? (fun p => decide (jread c.field = JVal.val p.2.colId)) sm.enum with
  | some p => applySortEntry sm.length p.1 p.2 c
  | none => c

/-- The clear-patch the sort reaction synthesizes for a previously annotated
field: direction `null` and priority `undefined`, both keys present so that
the spread overwrites them. -/
def clearPatch (f : String) : ColDef :=
  { field := some (JVal.val f), sortDirection := some JVal.null,
    sortIndex := some JVal.undef }

/-- The set-patch the sort reaction synthesizes for the entry at position
`idx` of a sort model of length `n`: the entry's direction, and priority
`idx + 1` exactly when the model has more than one entry. -/
def setPatch (n idx : Nat) (it : SortItem) : ColDef :=
  { field := some (JVal.val it.colId), sortDirection := some it.sort,
    sortIndex := some (if 1 < n then JVal.val (idx + 1) else JVal.undef) }

/-- Internal consistency of a committed column state: visible columns, the
metadata, the lookup and the two flags are the ones derived from `all`. -/
def consistentState (s : InternalColumns) : Prop :=
  s.visible = filterVisible s.all ∧
  s.meta = toMeta (filterVisible s.all) ∧
  s.lookup = toLookup s.all ∧
  s.hasColumns = decide (0 < s.all.length) ∧
  s.hasVisibleColumns = decide (0 < (filterVisible s.all).length)

/-!
## Concrete columns used by the claims' examples and witnesses
-/

/-- The column `{field: "a", width: 100}` of the spec's example. -/
def exampleColA : ColDef :=
  { field := some (JVal.val "a"), width := some (JVal.val 100) }

/-- The column `{field: "b", width: 50, hide: true}` of the spec's example. -/
def exampleColB : ColDef :=
  { field := some (JVal.val "b"), width := some (JVal.val 50),
    hide := some (JVal.val true) }

/-- The column `{field: "c", width: 80}` of the spec's example. -/
def exampleColC : ColDef :=
  { field := some (JVal.val "c"), width := some (JVal.val 80) }

/-- The three-column list of the spec's example. -/
def exampleColumns : List ColDef := [exampleColA, exampleColB, exampleColC]

/-- The running total of the `toMeta` reduction, starting from `t` (an
`Option Nat` where `none` is `NaN`). -/
def totalAfter (t : Option Nat) (l : List ColDef) : Option Nat :=
  List.foldl (fun a c => nanAdd a (jread c.width).toNum) t l

/-- The position entries pushed by the `toMeta` reduction, starting from a
running total `t`. -/
def runningPositions (t : Option Nat) : List ColDef → List (Option Nat)
  | [] => []
  | c :: rest => t :: runningPositions (nanAdd t (jread c.width).toNum) rest

/-- A column carrying a sort direction but no sort index (witness input). -/
def exampleSortedCol : ColDef :=
  { field := some (JVal.val "a"), sortDirection := some (JVal.val SortDir.asc) }

/-- A one-entry sort model naming field `a` (witness input). -/
def exampleSortModel : List SortItem := [{ colId := "a", sort := JVal.val SortDir.desc }]

/-- A grid api whose `getSortModel` returns `exampleSortModel` (witness input). -/
def exampleApi : GridApiModel := { getSortModel := some exampleSortModel }

attribute [ext] ColDef InternalColumns

/-!
## Lemmas about `jsFindIndex`
-/

theorem jsFindIndex_eq_none_iff {α : Type} (p : α → Bool) (l : List α) :
    jsFindIndex p l = none ↔ ∀ a ∈ l, p a = false := by
  induction l with
  | nil => simp [jsFindIndex]
  | cons a l ih =>
    by_cases h : p a = true
    · simp [jsFindIndex, h]
    · simp only [Bool.not_eq_true] at h
      simp [jsFindIndex, h, ih]

theorem jsFindIndex_found {α : Type} (p : α → Bool) (l : List α) (n : Nat)
    (h : jsFindIndex p l = some n) : ∃ a, l[n]? = some a ∧ p a = true := by
  induction l generalizing n with
  | nil => simp [jsFindIndex] at h
  | cons a l ih =>
    by_cases hp : p a = true
    · simp only [jsFindIndex, hp, if_true, Option.some.injEq] at h
      subst h
      exact ⟨a, by simp, hp⟩
    · simp only [Bool.not_eq_true] at hp
      simp only [jsFindIndex, hp, Bool.false_eq_true, if_false, Option.map_eq_some'] at h
      obtain ⟨m, hm, rfl⟩ := h
      obtain ⟨b, hb, hpb⟩ := ih m hm
      exact ⟨b, by simpa using hb, hpb⟩

theorem jsFindIndex_before {α : Type} (p : α → Bool) (l : List α) (n : Nat)
    (h : jsFindIndex p l = some n) :
    ∀ j, j < n → ∀ a, l[j]? = some a → p a = false := by
  induction l generalizing n with
  | nil => simp [jsFindIndex] at h
  | cons a l ih =>
    by_cases hp : p a = true
    · simp only [jsFindIndex, hp, if_true, Option.some.injEq] at h
      subst h
      intro j hj
      exact absurd hj (Nat.not_lt_zero j)
    · simp only [Bool.not_eq_true] at hp
      simp only [jsFindIndex, hp, Bool.false_eq_true, if_false, Option.map_eq_some'] at h
      obtain ⟨m, hm, rfl⟩ := h
      intro j hj b hb
      match j with
      | 0 =>
        simp only [List.getElem?_cons_zero, Option.some.injEq] at hb
        subst hb; exact hp
      | j + 1 =>
        simp only [List.getElem?_cons_succ] at hb
        exact ih m hm j (Nat.lt_of_succ_lt_succ hj) b hb

theorem jsFindIndex_le_of_found {α : Type} (p : α → Bool) (l : List α) (i : Nat) (a : α)
    (hi : l[i]? = some a) (hp : p a = true) :
    ∃ n, jsFindIndex p l = some n ∧ n ≤ i := by
  induction l generalizing i with
  | nil => simp at hi
  | cons b l ih =>
    by_cases hb : p b = true
    · exact ⟨0, by simp [jsFindIndex, hb], Nat.zero_le i⟩
    · simp only [Bool.not_eq_true] at hb
      match i with
      | 0 =>
        simp only [List.getElem?_cons_zero, Option.some.injEq] at hi
        subst hi
        exact absurd hp (by simp [hb])
      | i + 1 =>
        simp only [List.getElem?_cons_succ] at hi
        obtain ⟨n, hn, hle⟩ := ih i hi
        exact ⟨n + 1, by simp [jsFindIndex, hb, hn], Nat.succ_le_succ hle⟩

theorem jsFindIndex_eq_some_iff {α : Type} (p : α → Bool) (l : List α) (n : Nat) :
    jsFindIndex p l = some n ↔
      (∃ a, l[n]? = some a ∧ p a = true) ∧
      ∀ j, j < n → ∀ a, l[j]? = some a → p a = false := by
  constructor
  · intro h
    exact ⟨jsFindIndex_found p l n h, jsFindIndex_before p l n h⟩
  · rintro ⟨⟨a, ha, hpa⟩, hbefore⟩
    obtain ⟨m, hm, hle⟩ := jsFindIndex_le_of_found p l n a ha hpa
    rcases Nat.lt_or_ge m n with hlt | hge
    · obtain ⟨b, hb, hpb⟩ := jsFindIndex_found p l m hm
      exact absurd hpb (by simp [hbefore m hlt b hb])
    · have : m = n := Nat.le_antisymm hle hge
      subst this; exact hm

/-!
## Lemmas about `updateFirstMatching`
-/

theorem updateFirstMatching_length (p : ColDef → Bool) (f : ColDef → ColDef) (l : List ColDef) :
    (updateFirstMatching p f l).length = l.length := by
  induction l with
  | nil => rfl
  | cons a l ih =>
    by_cases h : p a = true
    · simp [updateFirstMatching, h]
    · simp only [Bool.not_eq_true] at h
      simp [updateFirstMatching, h, ih]

theorem updateFirstMatching_of_none (p : ColDef → Bool) (f : ColDef → ColDef) (l : List ColDef)
    (h : jsFindIndex p l = none) : updateFirstMatching p f l = l := by
  induction l with
  | nil => rfl
  | cons a l ih =>
    rw [jsFindIndex_eq_none_iff] at h
    have ha := h a (List.mem_cons_self a l)
    have hl : jsFindIndex p l = none := by
      rw [jsFindIndex_eq_none_iff]
      exact fun b hb => h b (List.mem_cons_of_mem a hb)
    simp [updateFirstMatching, ha, ih hl]

theorem updateFirstMatching_getElem? (p : ColDef → Bool) (f : ColDef → ColDef)
    (l : List ColDef) (k : Nat) (h : jsFindIndex p l = some k) (i : Nat) :
    (updateFirstMatching p f l)[i]? = if i = k then l[i]?.map f else l[i]? := by
  induction l generalizing k i with
  | nil => simp [jsFindIndex] at h
  | cons a l ih =>
    by_cases hp : p a = true
    · simp only [jsFindIndex, hp, if_true, Option.some.injEq] at h
      subst h
      match i with
      | 0 => simp [updateFirstMatching, hp]
      | i + 1 => simp [updateFirstMatching, hp]
    · simp only [Bool.not_eq_true] at hp
      simp only [jsFindIndex, hp, Bool.false_eq_true, if_false, Option.map_eq_some'] at h
      obtain ⟨m, hm, rfl⟩ := h
      match i with
      | 0 => simp [updateFirstMatching, hp]
      | i + 1 =>
        simp only [updateFirstMatching, hp, Bool.false_eq_true, if_false,
          List.getElem?_cons_succ, Nat.add_right_cancel_iff]
        exact ih m hm i

theorem updateFirstMatching_presentFields (p : ColDef → Bool) (f : ColDef → ColDef)
    (l : List ColDef) (hf : ∀ c, p c = true → jread (f c).field = jread c.field) :
    presentFields (updateFirstMatching p f l) = presentFields l := by
  induction l with
  | nil => rfl
  | cons a l ih =>
    by_cases hp : p a = true
    · simp only [updateFirstMatching, hp, if_true]
      simp only [presentFields, List.filterMap_cons, hf a hp]
    · simp only [Bool.not_eq_true] at hp
      simp only [updateFirstMatching, hp, Bool.false_eq_true, if_false]
      simp only [presentFields, List.filterMap_cons] at ih ⊢
      rw [ih]

/-!
## Lemmas about `presentFields`
-/

theorem mem_presentFields (cols : List ColDef) (c : ColDef) (s : String)
    (hc : c ∈ cols) (hs : jread c.field = JVal.val s) : s ∈ presentFields cols := by
  simp only [presentFields, List.mem_filterMap]
  exact ⟨c, hc, by simp [hs]⟩

theorem presentFields_cons_val (c : ColDef) (l : List ColDef) (s : String)
    (hs : jread c.field = JVal.val s) :
    presentFields (c :: l) = s :: presentFields l := by
  simp [presentFields, List.filterMap_cons, hs]

theorem presentFields_cons_not_val (c : ColDef) (l : List ColDef)
    (hs : ∀ s, jread c.field ≠ JVal.val s) :
    presentFields (c :: l) = presentFields l := by
  rcases h : jread c.field with _ | _ | s
  · simp [presentFields, List.filterMap_cons, h]
  · simp [presentFields, List.filterMap_cons, h]
  · exact absurd h (hs s)

theorem presentFields_tail_nodup (c : ColDef) (l : List ColDef)
    (h : (presentFields (c :: l)).Nodup) : (presentFields l).Nodup := by
  rcases hf : jread c.field with _ | _ | s
  · rwa [presentFields_cons_not_val c l (by simp [hf])] at h
  · rwa [presentFields_cons_not_val c l (by simp [hf])] at h
  · rw [presentFields_cons_val c l s hf] at h
    exact h.of_cons

theorem exists_getElem?_of_mem_presentFields (cols : List ColDef) (s : String)
    (h : s ∈ presentFields cols) :
    ∃ (i : Nat) (c : ColDef), cols[i]? = some c ∧ jread c.field = JVal.val s := by
  simp only [presentFields, List.mem_filterMap] at h
  obtain ⟨c, hc, hcs⟩ := h
  have hs : jread c.field = JVal.val s := by
    rcases hf : jread c.field with _ | _ | t
    · rw [hf] at hcs; simp at hcs
    · rw [hf] at hcs; simp at hcs
    · rw [hf] at hcs
      simp only [Option.some.injEq] at hcs
      rw [hcs]
  obtain ⟨i, hi⟩ := List.mem_iff_getElem?.mp hc
  exact ⟨i, c, hi, hs⟩

/-- Uniqueness of a present field under `Nodup`: the first (and only) column
whose field is the string `s` is the one at the given position. -/
theorem jsFindIndex_field_unique (cols : List ColDef) (hnd : (presentFields cols).Nodup)
    (i : Nat) (c : ColDef) (hi : cols[i]? = some c) (s : String)
    (hs : jread c.field = JVal.val s) :
    jsFindIndex (fun mc => decide (jread mc.field = JVal.val s)) cols = some i := by
  induction cols generalizing i with
  | nil => simp at hi
  | cons a l ih =>
    match i with
    | 0 =>
      simp only [List.getElem?_cons_zero, Option.some.injEq] at hi
      subst hi
      simp [jsFindIndex, hs]
    | i + 1 =>
      simp only [List.getElem?_cons_succ] at hi
      by_cases hp : jread a.field = JVal.val s
      · rw [presentFields_cons_val a l s hp] at hnd
        have : s ∈ presentFields l :=
          mem_presentFields l c s (List.getElem?_mem hi) hs
        exact absurd this (by simpa using hnd.not_mem)
      · have hnd' := presentFields_tail_nodup a l hnd
        simp only [jsFindIndex, hp, decide_False, Bool.false_eq_true, if_false]
        rw [ih hnd' i hi]
        rfl

/-!
## Lemmas about the lookup object (`objInsert`, `objGet`, `replaceKey`)
-/

theorem keyMem_iff (m : Lookup) (k : String) :
    keyMem m k = true ↔ k ∈ List.map Prod.fst m := by
  simp [keyMem, List.any_eq_true, List.mem_map]

theorem objInsert_of_mem (m : Lookup) (k : String) (v : ColDef)
    (h : keyMem m k = true) : objInsert m k v = replaceKey m k v := by
  rw [objInsert, if_pos h]

theorem objInsert_of_not_mem (m : Lookup) (k : String) (v : ColDef)
    (h : keyMem m k = false) : objInsert m k v = m ++ [(k, v)] := by
  rw [objInsert, if_neg (by simp [h])]

theorem objGet_replaceKey_self (m : Lookup) (k : String) (v : ColDef)
    (h : keyMem m k = true) :
    objGet (replaceKey m k v) k = some v := by
  induction m with
  | nil => simp [keyMem] at h
  | cons p t ih =>
    by_cases hp : p.1 = k
    · simp [replaceKey, objGet, hp]
    · have h' : keyMem t k = true := by
        simp only [keyMem, List.any_cons] at h
        rcases Bool.or_eq_true_iff.mp h with h1 | h2
        · exact absurd (of_decide_eq_true h1) hp
        · exact h2
      simp only [replaceKey, List.map_cons, if_neg hp]
      simpa [objGet, hp] using ih h'

theorem objGet_replaceKey_ne (m : Lookup) (k k' : String) (v : ColDef) (h : k' ≠ k) :
    objGet (replaceKey m k v) k' = objGet m k' := by
  induction m with
  | nil => rfl
  | cons p t ih =>
    by_cases hp : p.1 = k
    · simp only [replaceKey, List.map_cons, if_pos hp]
      have h1 : ¬(k = k') := fun hh => h hh.symm
      have h2 : ¬(p.1 = k') := by rw [hp]; exact h1
      simp only [objGet, if_neg h1, if_neg h2]
      exact ih
    · simp only [replaceKey, List.map_cons, if_neg hp]
      simp only [objGet]
      by_cases hpk' : p.1 = k'
      · simp [hpk']
      · simp only [if_neg hpk']
        exact ih

theorem objGet_append_single_self (m : Lookup) (k : String) (v : ColDef)
    (h : keyMem m k = false) :
    objGet (m ++ [(k, v)]) k = some v := by
  induction m with
  | nil => simp [objGet]
  | cons p t ih =>
    simp only [keyMem, List.any_cons, Bool.or_eq_false_iff] at h
    obtain ⟨hp, ht⟩ := h
    have hp' : ¬(p.1 = k) := by simpa using hp
    simp only [List.cons_append, objGet, if_neg hp']
    exact ih (by simpa [keyMem] using ht)

theorem objGet_append_single_ne (m : Lookup) (k k' : String) (v : ColDef) (h : k' ≠ k) :
    objGet (m ++ [(k, v)]) k' = objGet m k' := by
  induction m with
  | nil =>
    simp only [List.nil_append, objGet]
    rw [if_neg (fun hh => h hh.symm)]
  | cons p t ih =>
    simp only [List.cons_append, objGet]
    by_cases hpk' : p.1 = k'
    · simp [hpk']
    · simp only [if_neg hpk']
      exact ih

theorem objGet_objInsert_self (m : Lookup) (k : String) (v : ColDef) :
    objGet (objInsert m k v) k = some v := by
  by_cases h : keyMem m k = true
  · rw [objInsert, if_pos h]
    exact objGet_replaceKey_self m k v h
  · rw [objInsert, if_neg h]
    exact objGet_append_single_self m k v (by simpa using h)

theorem objGet_objInsert_ne (m : Lookup) (k k' : String) (v : ColDef) (h : k' ≠ k) :
    objGet (objInsert m k v) k' = objGet m k' := by
  by_cases hm : keyMem m k = true
  · rw [objInsert, if_pos hm]
    exact objGet_replaceKey_ne m k k' v h
  · rw [objInsert, if_neg hm]
    exact objGet_append_single_ne m k k' v h

theorem keys_replaceKey (m : Lookup) (k : String) (v : ColDef) :
    List.map Prod.fst (replaceKey m k v) = List.map Prod.fst m := by
  induction m with
  | nil => rfl
  | cons p t ih =>
    by_cases hp : p.1 = k
    · simp only [replaceKey, List.map_cons, if_pos hp] at *
      simp [hp, ih]
    · simp only [replaceKey, List.map_cons, if_neg hp] at *
      simp [ih]

theorem keyMem_eq_of_keys_eq (m m' : Lookup) (k : String)
    (h : List.map Prod.fst m = List.map Prod.fst m') : keyMem m k = keyMem m' k := by
  have : ∀ (mm : Lookup), keyMem mm k = List.any (List.map Prod.fst mm) fun s => decide (s = k) := by
    intro mm
    induction mm with
    | nil => rfl
    | cons a t ih => simp [keyMem, List.any_cons, List.map_cons] at ih ⊢; rw [ih]
  rw [this m, this m', h]

theorem keyMem_replaceKey (m : Lookup) (k k' : String) (v : ColDef) :
    keyMem (replaceKey m k v) k' = keyMem m k' :=
  keyMem_eq_of_keys_eq _ _ _ (keys_replaceKey m k v)

theorem replaceKey_of_not_mem (m : Lookup) (k : String) (v : ColDef)
    (h : keyMem m k = false) : replaceKey m k v = m := by
  induction m with
  | nil => rfl
  | cons p t ih =>
    simp only [keyMem, List.any_cons, Bool.or_eq_false_iff] at h
    obtain ⟨hp, ht⟩ := h
    have hp' : ¬(p.1 = k) := by simpa using hp
    simp only [replaceKey, List.map_cons, if_neg hp']
    rw [show List.map (fun p => if p.1 = k then (k, v) else p) t = replaceKey t k v from rfl,
      ih ht]

theorem replaceKey_append (m m' : Lookup) (k : String) (v : ColDef) :
    replaceKey (m ++ m') k v = replaceKey m k v ++ replaceKey m' k v := by
  simp [replaceKey, List.map_append]

theorem replaceKey_replaceKey_same (m : Lookup) (k : String) (v w : ColDef) :
    replaceKey (replaceKey m k v) k w = replaceKey m k w := by
  induction m with
  | nil => rfl
  | cons p t ih =>
    by_cases hp : p.1 = k
    · simp only [replaceKey, List.map_cons, if_pos hp, if_pos rfl] at *
      simp [ih]
    · simp only [replaceKey, List.map_cons, if_neg hp] at *
      simp [ih]

theorem keyMem_append_single_self (m : Lookup) (k : String) (v : ColDef) :
    keyMem (m ++ [(k, v)]) k = true := by
  simp [keyMem, List.any_append]

theorem objInsert_objInsert_same (m : Lookup) (k : String) (v w : ColDef) :
    objInsert (objInsert m k v) k w = objInsert m k w := by
  by_cases hm : keyMem m k = true
  · have h1 : objInsert m k v = replaceKey m k v := by rw [objInsert, if_pos hm]
    rw [h1, objInsert, if_pos (by rw [keyMem_replaceKey]; exact hm), objInsert, if_pos hm]
    exact replaceKey_replaceKey_same m k v w
  · have hm' : keyMem m k = false := by simpa using hm
    have h1 : objInsert m k v = m ++ [(k, v)] := by rw [objInsert, if_neg hm]
    rw [h1, objInsert, if_pos (keyMem_append_single_self m k v), objInsert, if_neg hm]
    rw [replaceKey_append, replaceKey_of_not_mem m k w hm']
    simp [replaceKey]

theorem keyMem_objInsert_self (m : Lookup) (k : String) (v : ColDef) :
    keyMem (objInsert m k v) k = true := by
  by_cases hm : keyMem m k = true
  · rw [objInsert, if_pos hm, keyMem_replaceKey]; exact hm
  · rw [objInsert, if_neg hm]; exact keyMem_append_single_self m k v

theorem keyMem_objInsert_mono (m : Lookup) (k k' : String) (v : ColDef)
    (h : keyMem m k = true) : keyMem (objInsert m k' v) k = true := by
  by_cases hm : keyMem m k' = true
  · rw [objInsert, if_pos hm, keyMem_replaceKey]; exact h
  · rw [objInsert, if_neg hm]
    simp only [keyMem] at h ⊢
    simp only [List.any_append, Bool.or_eq_true]
    exact Or.inl h

theorem keyMem_objInsert_of_ne (m : Lookup) (k k' : String) (v : ColDef) (h : k ≠ k') :
    keyMem (objInsert m k' v) k = keyMem m k := by
  by_cases hm : keyMem m k' = true
  · rw [objInsert, if_pos hm, keyMem_replaceKey]
  · rw [objInsert, if_neg hm]
    simp [keyMem, List.any_append, Ne.symm h]

theorem objInsert_replaceKey_comm (m : Lookup) (k k' : String) (v w : ColDef)
    (h : k' ≠ k) :
    objInsert (replaceKey m k v) k' w = replaceKey (objInsert m k' w) k v := by
  by_cases hm : keyMem m k' = true
  · rw [objInsert, if_pos (by rw [keyMem_replaceKey]; exact hm), objInsert, if_pos hm]
    -- two in-place replacements at different keys commute
    induction m with
    | nil => rfl
    | cons p t ih =>
      by_cases hp : p.1 = k
      · have hpk' : ¬(p.1 = k') := by rw [hp]; exact fun hh => h hh.symm
        simp only [replaceKey, List.map_cons, if_pos hp, if_neg hpk',
          if_neg (fun hh : k = k' => h hh.symm), if_pos hp]
        by_cases ht : keyMem t k' = true
        · exact congrArg _ (ih ht)
        · rw [show List.map (fun p => if p.1 = k' then (k', w) else p) t = replaceKey t k' w from rfl,
            replaceKey_of_not_mem t k' w (by simpa using ht),
            show List.map (fun p => if p.1 = k then (k, v) else p) t = replaceKey t k v from rfl,
            show List.map (fun p => if p.1 = k' then (k', w) else p) (replaceKey t k v)
              = replaceKey (replaceKey t k v) k' w from rfl,
            replaceKey_of_not_mem (replaceKey t k v) k' w
              (by rw [keyMem_replaceKey]; simpa using ht)]
      · by_cases hpk' : p.1 = k'
        · simp only [replaceKey, List.map_cons, if_neg hp, if_pos hpk',
            if_pos rfl, if_neg (fun hh : k' = k => h hh)]
          by_cases ht : keyMem t k' = true
          · exact congrArg _ (ih ht)
          · rw [show List.map (fun p => if p.1 = k' then (k', w) else p) t = replaceKey t k' w from rfl,
              replaceKey_of_not_mem t k' w (by simpa using ht),
              show List.map (fun p => if p.1 = k then (k, v) else p) t = replaceKey t k v from rfl,
              show List.map (fun p => if p.1 = k' then (k', w) else p) (replaceKey t k v)
                = replaceKey (replaceKey t k v) k' w from rfl,
              replaceKey_of_not_mem (replaceKey t k v) k' w
                (by rw [keyMem_replaceKey]; simpa using ht)]
        · simp only [replaceKey, List.map_cons, if_neg hp, if_neg hpk']
          by_cases ht : keyMem t k' = true
          · exact congrArg _ (ih ht)
          · rw [show List.map (fun p => if p.1 = k' then (k', w) else p) t = replaceKey t k' w from rfl,
              replaceKey_of_not_mem t k' w (by simpa using ht),
              show List.map (fun p => if p.1 = k then (k, v) else p) t = replaceKey t k v from rfl,
              show List.map (fun p => if p.1 = k' then (k', w) else p) (replaceKey t k v)
                = replaceKey (replaceKey t k v) k' w from rfl,
              replaceKey_of_not_mem (replaceKey t k v) k' w
                (by rw [keyMem_replaceKey]; simpa using ht)]
  · rw [objInsert, if_neg (by rw [keyMem_replaceKey]; exact hm), objInsert, if_neg hm]
    rw [replaceKey_append]
    have : replaceKey [(k', w)] k v = [(k', w)] := by
      simp [replaceKey, fun hh : k' = k => h hh]
    rw [this]

/-!
## Lemmas about `toMeta`
-/

theorem toMeta_fold (l : List ColDef) (t : Option Nat) (ps : List (Option Nat)) :
    List.foldl
      (fun (acc : Option Nat × List (Option Nat)) curCol =>
        (nanAdd acc.1 (jread curCol.width).toNum, acc.2 ++ [acc.1]))
      (t, ps) l
    = (totalAfter t l, ps ++ runningPositions t l) := by
  induction l generalizing t ps with
  | nil => simp [totalAfter, runningPositions]
  | cons c rest ih =>
    simp only [List.foldl_cons]
    rw [ih]
    simp [totalAfter, runningPositions]

theorem toMeta_eq (l : List ColDef) :
    toMeta l = { totalWidth := totalAfter (some 0) l,
                 positions := runningPositions (some 0) l } := by
  simp only [toMeta]
  rw [toMeta_fold]
  simp

theorem runningPositions_length (t : Option Nat) (l : List ColDef) :
    (runningPositions t l).length = l.length := by
  induction l generalizing t with
  | nil => rfl
  | cons c rest ih => simp [runningPositions, ih]

theorem toMeta_positions_length (l : List ColDef) :
    (toMeta l).positions.length = l.length := by
  rw [toMeta_eq]
  exact runningPositions_length _ l

theorem totalAfter_of_widths : ∀ (l : List ColDef) (t : Nat),
    (∀ c ∈ l, ∃ w, jread c.width = JVal.val w) →
    totalAfter (some t) l = some (t + (List.map widthNat l).sum)
  | [], t, _ => by simp [totalAfter]
  | c :: rest, t, h => by
    obtain ⟨w, hw⟩ := h c (List.mem_cons_self c rest)
    have hw' : widthNat c = w := by simp [widthNat, hw]
    have h1 : totalAfter (some t) (c :: rest) = totalAfter (some (t + w)) rest := by
      simp [totalAfter, List.foldl_cons, hw, JVal.toNum, nanAdd]
    rw [h1, totalAfter_of_widths rest (t + w)
      (fun d hd => h d (List.mem_cons_of_mem c hd))]
    simp [hw', Nat.add_assoc]

theorem runningPositions_getElem? : ∀ (l : List ColDef) (t i : Nat),
    (∀ c ∈ l, ∃ w, jread c.width = JVal.val w) → i < l.length →
    (runningPositions (some t) l)[i]?
      = some (some (t + (List.map widthNat (l.take i)).sum))
  | [], _, i, _, hi => by simp at hi
  | _ :: _, _, 0, _, _ => by simp [runningPositions]
  | c :: rest, t, i + 1, h, hi => by
    obtain ⟨w, hw⟩ := h c (List.mem_cons_self c rest)
    have hw' : widthNat c = w := by simp [widthNat, hw]
    have h1 : runningPositions (some t) (c :: rest)
        = some t :: runningPositions (some (t + w)) rest := by
      simp [runningPositions, hw, JVal.toNum, nanAdd]
    rw [h1]
    simp only [List.getElem?_cons_succ]
    rw [runningPositions_getElem? rest (t + w) i
      (fun d hd => h d (List.mem_cons_of_mem c hd)) (by simpa using hi)]
    simp [List.take_succ_cons, hw', Nat.add_assoc]

/-!
## Lemmas about `assignMissingSortIndexes`
-/

theorem sortedCountBefore_zero (l : List ColDef) : sortedCountBefore l 0 = 0 := by
  simp [sortedCountBefore]

theorem sortedCountBefore_cons_succ (c : ColDef) (l : List ColDef) (i : Nat) :
    sortedCountBefore (c :: l) (i + 1)
      = (if (jread c.sortDirection).isNullish then 0 else 1) + sortedCountBefore l i := by
  simp only [sortedCountBefore, List.take_succ_cons, List.filter_cons]
  by_cases h : (jread c.sortDirection).isNullish
  · simp [h]
  · simp only [Bool.not_eq_true] at h
    simp [h, Nat.add_comm]

theorem assign_length : ∀ (k : Nat) (l : List ColDef),
    (assignMissingSortIndexes k l).length = l.length
  | _, [] => rfl
  | k, c :: rest => by
    by_cases hd : (jread c.sortDirection).isNullish
    · simp only [assignMissingSortIndexes, hd, if_true, List.length_cons]
      rw [assign_length k rest]
    · simp only [assignMissingSortIndexes, hd, Bool.false_eq_true, if_false, List.length_cons]
      rw [assign_length (k + 1) rest]

theorem assign_presentFields : ∀ (k : Nat) (l : List ColDef),
    presentFields (assignMissingSortIndexes k l) = presentFields l
  | _, [] => rfl
  | k, c :: rest => by
    by_cases hd : (jread c.sortDirection).isNullish
    · simp only [assignMissingSortIndexes, hd, if_true]
      simp only [presentFields, List.filterMap_cons]
      have := assign_presentFields k rest
      simp only [presentFields] at this
      rw [this]
    · simp only [assignMissingSortIndexes, hd, Bool.false_eq_true, if_false]
      simp only [presentFields, List.filterMap_cons]
      have := assign_presentFields (k + 1) rest
      simp only [presentFields] at this
      rw [this]
      by_cases hsi : (jread c.sortIndex).isNullish
      · simp [hsi]
      · simp [hsi]

theorem assign_getElem? : ∀ (l : List ColDef) (k i : Nat),
    (assignMissingSortIndexes k l)[i]?
      = (l[i]?).map (fun c =>
          if !(jread c.sortDirection).isNullish && (jread c.sortIndex).isNullish then
            { c with sortIndex := some (JVal.val (k + sortedCountBefore l i + 1)) }
          else c)
  | [], k, i => by simp [assignMissingSortIndexes]
  | c :: rest, k, i => by
    by_cases hd : (jread c.sortDirection).isNullish
    · simp only [assignMissingSortIndexes, hd, if_true]
      match i with
      | 0 => simp [hd]
      | i + 1 =>
        simp only [List.getElem?_cons_succ]
        rw [assign_getElem? rest k i, sortedCountBefore_cons_succ]
        simp [hd]
    · simp only [assignMissingSortIndexes, hd, Bool.false_eq_true, if_false]
      match i with
      | 0 =>
        by_cases hsi : (jread c.sortIndex).isNullish
        · simp [hd, hsi, sortedCountBefore_zero]
        · simp [hd, hsi]
      | i + 1 =>
        simp only [List.getElem?_cons_succ]
        rw [assign_getElem? rest (k + 1) i, sortedCountBefore_cons_succ]
        simp only [hd, Bool.false_eq_true, if_false]
        have harith : ∀ n : Nat, k + 1 + n + 1 = k + (1 + n) + 1 := by omega
        simp only [harith]

/-!
## The fold of per-item first-match updates

Both the sort-model re-application inside hydration and the patch loop of
`getUpdatedColumnState` iterate a list of items, each updating the first
column whose field matches the item's key.  Under distinct keys and distinct
present fields the result is pointwise: each column is updated by the (unique)
item matching its field, if any.
-/

theorem foldl_updateFirstMatching_getElem? {β : Type}
    (key : β → JVal String) (upd : β → ColDef → ColDef) :
    ∀ (items : List β) (cols : List ColDef),
    (∀ b ∈ items, ∃ s, key b = JVal.val s) →
    (∀ b c, jread c.field = key b → jread (upd b c).field = jread c.field) →
    (List.map key items).Nodup →
    (presentFields cols).Nodup →
    ∀ i : Nat, (List.foldl (fun cs b =>
            updateFirstMatching (fun mc => decide (jread mc.field = key b)) (upd b) cs)
          cols items)[i]?
      = (cols[i]?).map (fun c =>
          match List.find? (fun b => decide (jread c.field = key b)) items with
          | some b => upd b c
          | none => c)
  | [], cols, _, _, _, _, i => by
    simp [List.find?_nil]
  | b :: rest, cols, hkey, hupd, hnd, hf, i => by
    obtain ⟨s, hs⟩ := hkey b (List.mem_cons_self b rest)
    have hkey' : ∀ b' ∈ rest, ∃ s, key b' = JVal.val s :=
      fun b' hb' => hkey b' (List.mem_cons_of_mem b hb')
    have hnd' : (List.map key rest).Nodup := by
      simp only [List.map_cons] at hnd
      exact (List.nodup_cons.mp hnd).2
    have hbnotin : key b ∉ List.map key rest := by
      simp only [List.map_cons] at hnd
      exact (List.nodup_cons.mp hnd).1
    simp only [List.foldl_cons]
    rcases hidx : jsFindIndex (fun mc => decide (jread mc.field = key b)) cols with _ | k
    · -- no column matches this item
      rw [updateFirstMatching_of_none _ _ _ hidx]
      rw [foldl_updateFirstMatching_getElem? key upd rest cols hkey' hupd hnd' hf i]
      cases hc : cols[i]? with
      | none => simp
      | some c =>
        have hpb : ¬(decide (jread c.field = key b) = true) := by
          intro hcontra
          obtain ⟨n, hn, _⟩ :=
            jsFindIndex_le_of_found (fun mc => decide (jread mc.field = key b)) cols i c hc
              hcontra
          rw [hidx] at hn
          cases hn
        simp only [Option.map_some']
        rw [@List.find?_cons_of_neg β (fun b' => decide (jread c.field = key b')) b rest hpb]
    · -- the first matching column sits at index k
      obtain ⟨ck, hck, hpck⟩ := jsFindIndex_found _ _ _ hidx
      have hckf : jread ck.field = key b := of_decide_eq_true hpck
      have hf1 : presentFields
          (updateFirstMatching (fun mc => decide (jread mc.field = key b)) (upd b) cols)
          = presentFields cols :=
        updateFirstMatching_presentFields _ _ cols
          (fun c hpc => hupd b c (of_decide_eq_true hpc))
      rw [foldl_updateFirstMatching_getElem? key upd rest _ hkey' hupd hnd'
        (by rw [hf1]; exact hf) i]
      rw [updateFirstMatching_getElem? _ _ _ k hidx i]
      by_cases hik : i = k
      · subst hik
        rw [if_pos rfl, hck]
        simp only [Option.map_some']
        have hfield : jread (upd b ck).field = key b := by
          rw [hupd b ck hckf]
          exact hckf
        have hnone :
            List.find? (fun b' => decide (jread (upd b ck).field = key b')) rest = none := by
          rw [List.find?_eq_none]
          intro b' hb'
          simp only [decide_eq_true_eq]
          intro heq
          rw [hfield] at heq
          exact hbnotin (heq ▸ List.mem_map_of_mem key hb')
        rw [hnone, @List.find?_cons_of_pos β (fun b' => decide (jread ck.field = key b')) b rest
          hpck]
      · rw [if_neg hik]
        cases hc : cols[i]? with
        | none => simp
        | some c =>
          have hpb : ¬(decide (jread c.field = key b) = true) := by
            intro hcontra
            have hcf : jread c.field = JVal.val s := by
              rw [← hs]
              exact of_decide_eq_true hcontra
            have huniq := jsFindIndex_field_unique cols hf i c hc s hcf
            simp only [hs] at hidx
            rw [hidx] at huniq
            exact hik (Option.some.injEq .. ▸ (by cases huniq; rfl))
          simp only [Option.map_some']
          rw [@List.find?_cons_of_neg β (fun b' => decide (jread c.field = key b')) b rest hpb]

theorem foldl_updateFirstMatching_length {β : Type} (prd : β → ColDef → Bool)
    (upd : β → ColDef → ColDef) : ∀ (items : List β) (cols : List ColDef),
    (List.foldl (fun cs b => updateFirstMatching (prd b) (upd b) cs) cols items).length
      = cols.length
  | [], _ => rfl
  | b :: rest, cols => by
    simp only [List.foldl_cons]
    rw [foldl_updateFirstMatching_length prd upd rest _, updateFirstMatching_length]

theorem foldl_updateFirstMatching_proj {β γ : Type} (prd : β → ColDef → Bool)
    (upd : β → ColDef → ColDef) (proj : ColDef → γ)
    (hpres : ∀ b c, proj (upd b c) = proj c) :
    ∀ (items : List β) (cols : List ColDef) (i : Nat),
    ((List.foldl (fun cs b => updateFirstMatching (prd b) (upd b) cs) cols items)[i]?).map proj
      = (cols[i]?).map proj
  | [], _, _ => by simp only [List.foldl_nil]
  | b :: rest, cols, i => by
    simp only [List.foldl_cons]
    rw [foldl_updateFirstMatching_proj prd upd proj hpres rest _ i]
    rcases hidx : jsFindIndex (prd b) cols with _ | k
    · rw [updateFirstMatching_of_none _ _ _ hidx]
    · rw [updateFirstMatching_getElem? _ _ _ k hidx i]
      by_cases hik : i = k
      · subst hik
        rw [if_pos rfl]
        cases hc : cols[i]? with
        | none => rfl
        | some c => simp [hpres]
      · rw [if_neg hik]

/-!
## The sort-model re-application, pointwise
-/

theorem applySortModelToCols_getElem? (sm : List SortItem) (cols : List ColDef)
    (hnd : (List.map SortItem.colId sm).Nodup) (hf : (presentFields cols).Nodup) (i : Nat) :
    (applySortModelToCols sm cols)[i]? = (cols[i]?).map (phase2At sm) := by
  have hval : Function.Injective (JVal.val (α := String)) := by
    intro x y hxy
    injection hxy
  have hinst : (List.map (fun p : Nat × SortItem => JVal.val p.2.colId) sm.enum).Nodup := by
    have h1 : List.map (fun p : Nat × SortItem => JVal.val p.2.colId) sm.enum
        = List.map (fun it : SortItem => JVal.val it.colId) (List.map Prod.snd sm.enum) := by
      rw [List.map_map]
      rfl
    rw [h1, List.enum_map_snd]
    have h2 : List.map (fun it : SortItem => JVal.val it.colId) sm
        = List.map JVal.val (List.map SortItem.colId sm) := by
      rw [List.map_map]
      rfl
    rw [h2]
    exact hnd.map hval
  have h := foldl_updateFirstMatching_getElem?
    (fun p : Nat × SortItem => JVal.val p.2.colId)
    (fun p c => applySortEntry sm.length p.1 p.2 c)
    sm.enum cols
    (fun p _ => ⟨p.2.colId, rfl⟩)
    (fun _ _ _ => rfl)
    hinst hf i
  have hlhs : (applySortModelToCols sm cols)[i]?
      = (List.foldl
          (fun cs (b : Nat × SortItem) =>
            updateFirstMatching (fun mc => decide (jread mc.field = JVal.val b.2.colId))
              (fun c => applySortEntry sm.length b.1 b.2 c) cs)
          cols sm.enum)[i]? := rfl
  rw [hlhs, h]
  cases hc : cols[i]? with
  | none => rfl
  | some c =>
    simp only [Option.map_some']
    cases hfind : List.find?
        (fun b : Nat × SortItem => decide (jread c.field = JVal.val b.2.colId)) sm.enum with
    | none => simp [phase2At, hfind]
    | some b => simp [phase2At, hfind]

/-!
## The patch loop of `getUpdatedColumnState`, pointwise
-/

theorem updateFirstMatching_eq_set (p : ColDef → Bool) (f : ColDef → ColDef)
    (l : List ColDef) (k : Nat) (c : ColDef) (hidx : jsFindIndex p l = some k)
    (hc : l[k]? = some c) :
    updateFirstMatching p f l = l.set k (f c) := by
  apply List.ext_getElem?
  intro i
  rw [updateFirstMatching_getElem? p f l k hidx i]
  by_cases hik : i = k
  · subst hik
    rw [if_pos rfl, hc]
    have hk : i < l.length := by
      by_contra hge
      rw [List.getElem?_eq_none (by omega)] at hc
      cases hc
    rw [List.getElem?_set_self]
    · rfl
    · omega
  · rw [if_neg hik, List.getElem?_set_ne (fun hh => hik hh.symm)]

theorem applyColumnUpdate_all (st : InternalColumns) (q : ColDef) :
    (applyColumnUpdate st q).all
      = updateFirstMatching (fun c => decide (jread c.field = jread q.field))
          (fun c => mergeColDef c q) st.all := by
  rcases hidx : jsFindIndex (fun c => decide (jread c.field = jread q.field)) st.all
    with _ | k
  · rw [updateFirstMatching_of_none _ _ _ hidx]
    simp only [applyColumnUpdate, hidx]
  · obtain ⟨c, hc, _⟩ := jsFindIndex_found _ _ _ hidx
    rw [updateFirstMatching_eq_set _ _ _ k c hidx hc]
    simp only [applyColumnUpdate, hidx, hc, Option.getD_some]

theorem applyColumnUpdate_lookup (st : InternalColumns) (q : ColDef) :
    (applyColumnUpdate st q).lookup
      = objInsert st.lookup (jread q.field).toKey
          (match jsFindIndex (fun c => decide (jread c.field = jread q.field)) st.all with
           | some index => mergeColDef (st.all[index]?.getD {}) q
           | none => q) := by
  rcases hidx : jsFindIndex (fun c => decide (jread c.field = jread q.field)) st.all
    with _ | k
  · simp only [applyColumnUpdate, hidx]
  · simp only [applyColumnUpdate, hidx]

theorem foldl_applyColumnUpdate_all : ∀ (patches : List ColDef) (st : InternalColumns),
    (List.foldl applyColumnUpdate st patches).all
      = List.foldl (fun cs q =>
          updateFirstMatching (fun c => decide (jread c.field = jread q.field))
            (fun c => mergeColDef c q) cs) st.all patches
  | [], _ => rfl
  | q :: rest, st => by
    simp only [List.foldl_cons]
    rw [foldl_applyColumnUpdate_all rest (applyColumnUpdate st q), applyColumnUpdate_all]

theorem mergeColDef_field_jread (c q : ColDef) (h : jread c.field = jread q.field) :
    jread (mergeColDef c q).field = jread c.field := by
  cases hq : q.field with
  | none =>
    show jread (q.field <|> c.field) = jread c.field
    rw [hq]
    rfl
  | some v =>
    show jread (q.field <|> c.field) = jread c.field
    rw [hq]
    show jread (some v) = jread c.field
    rw [h, hq]

theorem getUpdatedColumnState_all_getElem? (s : InternalColumns) (patches : List ColDef)
    (hf : (presentFields s.all).Nodup)
    (hp : ∀ q ∈ patches, ∃ fq, q.field = some (JVal.val fq))
    (hnd : (List.map (fun q => jread q.field) patches).Nodup) (i : Nat) :
    (getUpdatedColumnState s patches).all[i]?
      = (s.all[i]?).map (fun c =>
          match List.find? (fun q => decide (jread c.field = jread q.field)) patches with
          | some q => mergeColDef c q
          | none => c) := by
  have hall : (getUpdatedColumnState s patches).all
      = (List.foldl applyColumnUpdate s patches).all := rfl
  rw [hall, foldl_applyColumnUpdate_all]
  have h := foldl_updateFirstMatching_getElem? (fun q => jread q.field)
    (fun q c => mergeColDef c q) patches s.all
    (fun q hq => by
      obtain ⟨fq, hfq⟩ := hp q hq
      exact ⟨fq, by simp [jread, hfq]⟩)
    (fun q c hqc => mergeColDef_field_jread c q hqc)
    hnd hf i
  rw [h]
  cases hc : s.all[i]? with
  | none => rfl
  | some c =>
    simp only [Option.map_some']
    cases hfind : List.find?
        (fun q => decide (jread c.field = jread q.field)) patches with
    | none => simp [hfind]
    | some q => simp [hfind]

/-!
## Hydration, pointwise
-/

theorem hydrateColumns_none_api (columns : List ColDef) (options : GridOptions) :
    hydrateColumns columns options { current := none }
      = withCheckbox options (mapWithDefaults columns) := by
  simp [hydrateColumns]

theorem assignStage_getElem? (base : List ColDef) (i : Nat) :
    (if 0 < (List.filter (fun c => !(jread c.sortDirection).isNullish) base).length
     then assignMissingSortIndexes 0 base else base)[i]?
      = (base[i]?).map (phase1At base i) := by
  by_cases hg : 0 < (List.filter (fun c => !(jread c.sortDirection).isNullish) base).length
  · rw [if_pos hg, assign_getElem? base 0 i]
    simp only [Nat.zero_add]
    rfl
  · rw [if_neg hg]
    have hempty : List.filter (fun c => !(jread c.sortDirection).isNullish) base = [] := by
      have : (List.filter (fun c => !(jread c.sortDirection).isNullish) base).length = 0 := by
        omega
      exact List.length_eq_zero.mp this
    cases hc : base[i]? with
    | none => rfl
    | some c =>
      have hmem : c ∈ base := List.getElem?_mem hc
      have hns : ¬((!(jread c.sortDirection).isNullish) = true) := by
        intro hcontra
        have := List.filter_eq_nil_iff.mp hempty c hmem
        exact this hcontra
      simp only [Option.map_some', Option.some.injEq]
      simp only [phase1At]
      rw [if_neg]
      simp only [Bool.and_eq_true]
      intro hcontra
      exact hns hcontra.1

theorem hydrateColumns_some_unfold (columns : List ColDef) (options : GridOptions)
    (api : GridApiModel) :
    hydrateColumns columns options { current := some api }
      = (match api.getSortModel with
         | none =>
           (if 0 < (List.filter (fun c => !(jread c.sortDirection).isNullish)
                (withCheckbox options (mapWithDefaults columns))).length
            then assignMissingSortIndexes 0 (withCheckbox options (mapWithDefaults columns))
            else withCheckbox options (mapWithDefaults columns))
         | some sm =>
           applySortModelToCols sm
             (if 0 < (List.filter (fun c => !(jread c.sortDirection).isNullish)
                  (withCheckbox options (mapWithDefaults columns))).length
              then assignMissingSortIndexes 0 (withCheckbox options (mapWithDefaults columns))
              else withCheckbox options (mapWithDefaults columns))) := by
  cases hsm : api.getSortModel with
  | none => simp [hydrateColumns, hsm]
  | some sm => simp [hydrateColumns, hsm]

theorem assignStage_presentFields (base : List ColDef) :
    presentFields
      (if 0 < (List.filter (fun c => !(jread c.sortDirection).isNullish) base).length
       then assignMissingSortIndexes 0 base else base)
      = presentFields base := by
  by_cases hg : 0 < (List.filter (fun c => !(jread c.sortDirection).isNullish) base).length
  · rw [if_pos hg, assign_presentFields]
  · rw [if_neg hg]

/-!
## Visibility preservation through the sort stages
-/

theorem visibleColumn_phase1At (base : List ColDef) (i : Nat) (c : ColDef) :
    visibleColumn (phase1At base i c) = visibleColumn c := by
  unfold phase1At
  split
  · rfl
  · rfl

theorem visibleColumn_applySortEntry (len idx : Nat) (it : SortItem) (c : ColDef) :
    visibleColumn (applySortEntry len idx it c) = visibleColumn c := rfl

theorem filter_length_eq_of_pointwise (p : ColDef → Bool) :
    ∀ (l1 l2 : List ColDef),
    (∀ i : Nat, (l1[i]?).map p = (l2[i]?).map p) →
    (List.filter p l1).length = (List.filter p l2).length
  | [], [], _ => rfl
  | [], b :: t2, h => by
    have := h 0
    simp at this
  | a :: t1, [], h => by
    have := h 0
    simp at this
  | a :: t1, b :: t2, h => by
    have h0 := h 0
    simp only [List.getElem?_cons_zero, Option.map_some', Option.some.injEq] at h0
    have ht : ∀ i : Nat, (t1[i]?).map p = (t2[i]?).map p := fun i => by
      have := h (i + 1)
      simpa using this
    have hrec := filter_length_eq_of_pointwise p t1 t2 ht
    simp only [List.filter_cons, h0]
    cases hpb : p b with
    | true => simp [hrec]
    | false => simp [hrec]

theorem applySortModelToCols_vis (sm : List SortItem) (cols : List ColDef) (i : Nat) :
    ((applySortModelToCols sm cols)[i]?).map visibleColumn
      = (cols[i]?).map visibleColumn := by
  have h : applySortModelToCols sm cols
      = List.foldl
          (fun cs (p : Nat × SortItem) =>
            updateFirstMatching (fun mc => decide (jread mc.field = JVal.val p.2.colId))
              (fun c => applySortEntry sm.length p.1 p.2 c) cs)
          cols sm.enum := rfl
  rw [h]
  exact foldl_updateFirstMatching_proj _ _ visibleColumn
    (fun p c => visibleColumn_applySortEntry sm.length p.1 p.2 c) sm.enum cols i

theorem hydrateColumns_vis (columns : List ColDef) (options : GridOptions)
    (apiRef : GridApiRef) (i : Nat) :
    ((hydrateColumns columns options apiRef)[i]?).map visibleColumn
      = ((withCheckbox options (mapWithDefaults columns))[i]?).map visibleColumn := by
  have hstage : ∀ i : Nat,
      ((if 0 < (List.filter (fun c => !(jread c.sortDirection).isNullish)
            (withCheckbox options (mapWithDefaults columns))).length
        then assignMissingSortIndexes 0 (withCheckbox options (mapWithDefaults columns))
        else withCheckbox options (mapWithDefaults columns))[i]?).map visibleColumn
      = ((withCheckbox options (mapWithDefaults columns))[i]?).map visibleColumn := by
    intro j
    rw [assignStage_getElem?, Option.map_map]
    cases hc : (withCheckbox options (mapWithDefaults columns))[j]? with
    | none => rfl
    | some c =>
      simp only [Option.map_some', Function.comp]
      rw [visibleColumn_phase1At]
  cases hcur : apiRef.current with
  | none =>
    have : apiRef = { current := none } := by
      cases apiRef
      simp only at hcur
      rw [hcur]
    rw [this, hydrateColumns_none_api]
  | some api =>
    have : apiRef = { current := some api } := by
      cases apiRef
      simp only at hcur
      rw [hcur]
    rw [this, hydrateColumns_some_unfold]
    cases hsm : api.getSortModel with
    | none =>
      simp only
      exact hstage i
    | some sm =>
      simp only
      rw [applySortModelToCols_vis]
      exact hstage i

theorem applySortModelToCols_length (sm : List SortItem) (cols : List ColDef) :
    (applySortModelToCols sm cols).length = cols.length := by
  have h : applySortModelToCols sm cols
      = List.foldl
          (fun cs (p : Nat × SortItem) =>
            updateFirstMatching (fun mc => decide (jread mc.field = JVal.val p.2.colId))
              (fun c => applySortEntry sm.length p.1 p.2 c) cs)
          cols sm.enum := rfl
  rw [h]
  exact foldl_updateFirstMatching_length _ _ sm.enum cols

theorem hydrateColumns_length (columns : List ColDef) (options : GridOptions)
    (apiRef : GridApiRef) :
    (hydrateColumns columns options apiRef).length
      = (withCheckbox options (mapWithDefaults columns)).length := by
  have hstage :
      (if 0 < (List.filter (fun c => !(jread c.sortDirection).isNullish)
            (withCheckbox options (mapWithDefaults columns))).length
        then assignMissingSortIndexes 0 (withCheckbox options (mapWithDefaults columns))
        else withCheckbox options (mapWithDefaults columns)).length
      = (withCheckbox options (mapWithDefaults columns)).length := by
    split
    · exact assign_length 0 _
    · rfl
  cases hcur : apiRef.current with
  | none =>
    have heq : apiRef = { current := none } := by
      cases apiRef
      simp only at hcur
      rw [hcur]
    rw [heq, hydrateColumns_none_api]
  | some api =>
    have heq : apiRef = { current := some api } := by
      cases apiRef
      simp only at hcur
      rw [hcur]
    rw [heq, hydrateColumns_some_unfold]
    cases hsm : api.getSortModel with
    | none =>
      simp only
      exact hstage
    | some sm =>
      simp only
      rw [applySortModelToCols_length]
      exact hstage

theorem visibleColumn_merged (c : ColDef) (fc : String)
    (hf : jread c.field = JVal.val fc) (hh : jread c.hide ≠ JVal.val true) :
    visibleColumn (mergeColDef (getColDef (jread c.type)) c) = true := by
  have hfield : (mergeColDef (getColDef (jread c.type)) c).field = c.field := by
    show (c.field <|> none) = c.field
    cases c.field <;> rfl
  have hhide : (mergeColDef (getColDef (jread c.type)) c).hide = c.hide := by
    show (c.hide <|> none) = c.hide
    cases c.hide <;> rfl
  simp only [visibleColumn, hfield, hhide, hf]
  simp only [JVal.isNullish, Bool.not_false, Bool.true_and]
  cases hv : jread c.hide with
  | undef => rfl
  | null => rfl
  | val b =>
    cases b with
    | false => rfl
    | true => exact absurd hv hh

theorem filterVisible_base_length (columns : List ColDef) (options : GridOptions)
    (hfield : ∀ c ∈ columns, ∃ fc, jread c.field = JVal.val fc)
    (hhide : ∀ c ∈ columns, jread c.hide ≠ JVal.val true) :
    (filterVisible (withCheckbox options (mapWithDefaults columns))).length
      = columns.length + (if options.checkboxSelection then 1 else 0) := by
  have hmapped : List.filter visibleColumn (mapWithDefaults columns)
      = mapWithDefaults columns := by
    apply List.filter_eq_self.mpr
    intro c hc
    simp only [mapWithDefaults, List.mem_map] at hc
    obtain ⟨c0, hc0, rfl⟩ := hc
    obtain ⟨fc, hfc⟩ := hfield c0 hc0
    exact visibleColumn_merged c0 fc hfc (hhide c0 hc0)
  cases hcb : options.checkboxSelection with
  | false =>
    simp only [withCheckbox, hcb, Bool.false_eq_true, if_false]
    rw [filterVisible, hmapped]
    simp [mapWithDefaults]
  | true =>
    simp only [withCheckbox, hcb, if_true]
    rw [filterVisible, List.filter_cons]
    have hcbx : visibleColumn checkboxSelectionColDef = true := rfl
    rw [hcbx]
    simp only [if_true, List.length_cons, hmapped]
    simp [mapWithDefaults]

/-!
## Helpers for the patch-state claims
-/

theorem exists_val_of_not_nullish {α : Type} (x : JVal α) (h : x.isNullish = false) :
    ∃ a, x = JVal.val a := by
  cases x with
  | undef => simp [JVal.isNullish] at h
  | null => simp [JVal.isNullish] at h
  | val a => exact ⟨a, rfl⟩

theorem orElse_orElse_self {α : Type} (x y : Option α) : (x <|> (x <|> y)) = (x <|> y) := by
  cases x <;> rfl

theorem mergeColDef_idem (a b : ColDef) : mergeColDef (mergeColDef a b) b = mergeColDef a b := by
  simp only [mergeColDef]
  congr 1 <;> exact orElse_orElse_self _ _

theorem presentFields_set : ∀ (l : List ColDef) (i : Nat) (c c' : ColDef),
    l[i]? = some c → jread c'.field = jread c.field →
    presentFields (l.set i c') = presentFields l
  | [], i, _, _, hi, _ => by simp at hi
  | a :: t, 0, c, c', hi, hf => by
    simp only [List.getElem?_cons_zero, Option.some.injEq] at hi
    subst hi
    rw [List.set_cons_zero]
    simp only [presentFields, List.filterMap_cons, hf]
  | a :: t, i + 1, c, c', hi, hf => by
    simp only [List.getElem?_cons_succ] at hi
    rw [List.set_cons_succ]
    simp only [presentFields, List.filterMap_cons]
    have := presentFields_set t i c c' hi hf
    simp only [presentFields] at this
    rw [this]

theorem keys_eq_presentFields : ∀ (l : List ColDef),
    (∀ c ∈ l, ∃ fc, jread c.field = JVal.val fc) →
    List.map (fun d => (jread d.field).toKey) l = presentFields l
  | [], _ => rfl
  | a :: t, hall => by
    obtain ⟨fa, hfa⟩ := hall a (List.mem_cons_self a t)
    rw [List.map_cons, presentFields_cons_val a t fa hfa, hfa]
    rw [keys_eq_presentFields t (fun c hc => hall c (List.mem_cons_of_mem a hc))]
    rfl

theorem keyMem_foldToLookup_mono : ∀ (l : List ColDef) (m : Lookup) (k : String),
    keyMem m k = true →
    keyMem (List.foldl (fun lookup col => objInsert lookup (jread col.field).toKey col) m l)
      k = true
  | [], _, _, h => h
  | c :: rest, m, k, h => by
    simp only [List.foldl_cons]
    exact keyMem_foldToLookup_mono rest _ k (keyMem_objInsert_mono m k _ c h)

theorem foldToLookup_replaceKey : ∀ (rest : List ColDef) (M : Lookup) (k : String) (v : ColDef),
    (∀ col ∈ rest, (jread col.field).toKey ≠ k) →
    List.foldl (fun lookup col => objInsert lookup (jread col.field).toKey col)
        (replaceKey M k v) rest
      = replaceKey
          (List.foldl (fun lookup col => objInsert lookup (jread col.field).toKey col) M rest)
          k v
  | [], _, _, _, _ => rfl
  | col :: rest, M, k, v, h => by
    simp only [List.foldl_cons]
    rw [objInsert_replaceKey_comm M k ((jread col.field).toKey) v col
      (h col (List.mem_cons_self col rest))]
    exact foldToLookup_replaceKey rest _ k v (fun d hd => h d (List.mem_cons_of_mem col hd))

theorem foldToLookup_set : ∀ (l : List ColDef) (i : Nat) (c c' : ColDef) (m : Lookup)
    (k : String),
    l[i]? = some c → (jread c.field).toKey = k → (jread c'.field).toKey = k →
    (List.map (fun d => (jread d.field).toKey) l).Nodup →
    keyMem m k = false →
    List.foldl (fun lookup col => objInsert lookup (jread col.field).toKey col) m (l.set i c')
      = objInsert
          (List.foldl (fun lookup col => objInsert lookup (jread col.field).toKey col) m l)
          k c'
  | [], i, _, _, _, _, hi, _, _, _, _ => by simp at hi
  | c0 :: rest, 0, c, c', m, k, hi, hkc, hkc', hnd, hm => by
    simp only [List.getElem?_cons_zero, Option.some.injEq] at hi
    subst hi
    rw [List.set_cons_zero]
    simp only [List.foldl_cons]
    rw [hkc', hkc]
    have hrestne : ∀ col ∈ rest, (jread col.field).toKey ≠ k := by
      intro col hcol hcontra
      simp only [List.map_cons, List.nodup_cons] at hnd
      rw [hkc] at hnd
      exact hnd.1 (hcontra ▸ List.mem_map_of_mem (fun d => (jread d.field).toKey) hcol)
    have h1 : objInsert m k c' = replaceKey (objInsert m k c0) k c' := by
      rw [objInsert_of_not_mem m k c0 hm, objInsert_of_not_mem m k c' hm,
        replaceKey_append, replaceKey_of_not_mem m k c' hm]
      simp [replaceKey]
    rw [h1, foldToLookup_replaceKey rest (objInsert m k c0) k c' hrestne]
    rw [objInsert_of_mem _ k c'
      (keyMem_foldToLookup_mono rest (objInsert m k c0) k (keyMem_objInsert_self m k c0))]
  | c0 :: rest, i + 1, c, c', m, k, hi, hkc, hkc', hnd, hm => by
    simp only [List.getElem?_cons_succ] at hi
    rw [List.set_cons_succ]
    simp only [List.foldl_cons]
    have hkne : k ≠ (jread c0.field).toKey := by
      intro hcontra
      simp only [List.map_cons, List.nodup_cons] at hnd
      have : k ∈ List.map (fun d => (jread d.field).toKey) rest := by
        rw [← hkc]
        exact List.mem_map_of_mem (fun d => (jread d.field).toKey) (List.getElem?_mem hi)
      exact hnd.1 (hcontra ▸ this)
    have hm' : keyMem (objInsert m (jread c0.field).toKey c0) k = false := by
      rw [keyMem_objInsert_of_ne m k (jread c0.field).toKey c0 hkne]
      exact hm
    exact foldToLookup_set rest i c c' (objInsert m (jread c0.field).toKey c0) k hi hkc hkc'
      (by simp only [List.map_cons, List.nodup_cons] at hnd; exact hnd.2) hm'

theorem toLookup_set (l : List ColDef) (i : Nat) (c c' : ColDef) (k : String)
    (hi : l[i]? = some c) (hkc : (jread c.field).toKey = k)
    (hkc' : (jread c'.field).toKey = k)
    (hnd : (List.map (fun d => (jread d.field).toKey) l).Nodup) :
    toLookup (l.set i c') = objInsert (toLookup l) k c' := by
  exact foldToLookup_set l i c c' [] k hi hkc hkc' hnd rfl

theorem foldl_applyColumnUpdate_presentFields : ∀ (patches : List ColDef)
    (st : InternalColumns),
    presentFields (List.foldl applyColumnUpdate st patches).all = presentFields st.all
  | [], _ => rfl
  | q :: rest, st => by
    simp only [List.foldl_cons]
    rw [foldl_applyColumnUpdate_presentFields rest _]
    rw [applyColumnUpdate_all]
    exact updateFirstMatching_presentFields _ _ st.all
      (fun c hpc => mergeColDef_field_jread c q (of_decide_eq_true hpc))

theorem getUpdatedColumnState_presentFields (s : InternalColumns) (patches : List ColDef) :
    presentFields (getUpdatedColumnState s patches).all = presentFields s.all := by
  have h : (getUpdatedColumnState s patches).all
      = (List.foldl applyColumnUpdate s patches).all := rfl
  rw [h]
  exact foldl_applyColumnUpdate_presentFields patches s

/-!
## Claim theorems
-/

/-- Claim C1: for every list of visible columns, `toMeta` yields a positions
array of the same length whose entry `i` is the sum of the widths of the
visible columns at indices `0..i-1` (so `positions[0] = 0`), and a total width
equal to the sum of all visible widths; in particular the example columns
`[{field:"a",width:100},{field:"b",width:50,hide:true},{field:"c",width:80}]`
yield visible columns `a` and `c`, total width `180` and positions `[0, 100]`.
(The sums presuppose numeric widths, hence the hypothesis.) -/
theorem claim_toMeta_positions_spec (visibleColumns : List ColDef)
    (h : ∀ c ∈ visibleColumns, ∃ w, jread c.width = JVal.val w) :
    (toMeta visibleColumns).positions.length = visibleColumns.length
    ∧ (∀ i : Nat, i < visibleColumns.length →
        (toMeta visibleColumns).positions[i]?
          = some (some ((List.map widthNat (visibleColumns.take i)).sum)))
    ∧ (toMeta visibleColumns).totalWidth = some ((List.map widthNat visibleColumns).sum)
    ∧ List.map (fun c => jread c.field) (resetState exampleColumns {} {}).visible
        = [JVal.val "a", JVal.val "c"]
    ∧ (resetState exampleColumns {} {}).meta
        = { totalWidth := some 180, positions := [some 0, some 100] } := by
  refine ⟨toMeta_positions_length _, ?_, ?_, by decide, by decide⟩
  · intro i hi
    rw [toMeta_eq]
    have hpos := runningPositions_getElem? visibleColumns 0 i h hi
    simpa using hpos
  · rw [toMeta_eq]
    have htot := totalAfter_of_widths visibleColumns 0 h
    simpa using htot

/-- Witness for C1: the hypothesis is satisfiable and the theorem applies at
the concrete two-column visible list of the spec's example. -/
theorem claim_toMeta_positions_spec_witness :
    (toMeta [exampleColA, exampleColC]).totalWidth = some 180
    ∧ (toMeta [exampleColA, exampleColC]).positions[1]? = some (some 100) := by
  have hw : ∀ c ∈ [exampleColA, exampleColC], ∃ w, jread c.width = JVal.val w := by
    intro c hc
    simp only [List.mem_cons, List.not_mem_nil, or_false] at hc
    rcases hc with rfl | rfl
    · exact ⟨100, rfl⟩
    · exact ⟨80, rfl⟩
  constructor
  · rw [(claim_toMeta_positions_spec [exampleColA, exampleColC] hw).2.2.1]
    decide
  · rw [(claim_toMeta_positions_spec [exampleColA, exampleColC] hw).2.1 1 (by decide)]
    decide

/-- Claim C2, counterexample: the claim asserts that during hydration every
column carrying a non-null sort direction whose sort priority index is missing
is assigned a 1-based index; the code runs that block only when
`apiRef.current` is attached.  With no grid api, a column with direction `asc`
and no index keeps an `undefined` index after hydration, so the claim as
stated is false. -/
theorem claim_hydrate_sort_counterexample :
    List.map (fun c => (jread c.sortDirection, jread c.sortIndex))
      (hydrateColumns
        [{ field := some (JVal.val "a"), sortDirection := some (JVal.val SortDir.asc) }]
        {} {})
      = [(JVal.val SortDir.asc, JVal.undef)] := by
  decide

/-- Claim C2, amended: during hydration with the grid api ref attached
(`apiRef.current` non-null, the condition the code actually checks), every
merged column carrying a non-null sort direction whose sort index is missing
is assigned the 1-based index of its position among the direction-carrying
columns (`phase1At`); then, if a sort model is retrievable, each column whose
field matches a model entry gets its direction from that entry and its index
set to the entry's 1-based position when the model has more than one entry and
`undefined` otherwise (`phase2At`).  Stated pointwise over the merged and
checkbox-prepended base list; the sort-model case assumes the grid's invariant
of unique field identifiers and unique sort-model entries. -/
theorem claim_hydrate_sort_spec (columns : List ColDef) (options : GridOptions)
    (api : GridApiModel) :
    (api.getSortModel = none →
      ∀ i : Nat, (hydrateColumns columns options { current := some api })[i]?
        = ((withCheckbox options (mapWithDefaults columns))[i]?).map
            (phase1At (withCheckbox options (mapWithDefaults columns)) i))
    ∧ (∀ sm, api.getSortModel = some sm →
        (presentFields (withCheckbox options (mapWithDefaults columns))).Nodup →
        (List.map SortItem.colId sm).Nodup →
        ∀ i : Nat, (hydrateColumns columns options { current := some api })[i]?
          = ((withCheckbox options (mapWithDefaults columns))[i]?).map
              (fun c =>
                phase2At sm
                  (phase1At (withCheckbox options (mapWithDefaults columns)) i c))) := by
  constructor
  · intro hsm i
    rw [hydrateColumns_some_unfold]
    simp only [hsm]
    exact assignStage_getElem? _ i
  · intro sm hsm hf hnd i
    rw [hydrateColumns_some_unfold]
    simp only [hsm]
    rw [applySortModelToCols_getElem? sm _ hnd
      (by rw [assignStage_presentFields]; exact hf) i]
    rw [assignStage_getElem? _ i, Option.map_map]
    rfl

/-- Witness for C2: the theorem applies with an attached api carrying a
one-entry sort model over a single sorted column. -/
theorem claim_hydrate_sort_spec_witness :
    (hydrateColumns [exampleSortedCol] {} { current := some exampleApi })[0]?
      = ((withCheckbox {} (mapWithDefaults [exampleSortedCol]))[0]?).map
          (fun c =>
            phase2At exampleSortModel
              (phase1At (withCheckbox {} (mapWithDefaults [exampleSortedCol])) 0 c)) := by
  exact (claim_hydrate_sort_spec [exampleSortedCol] {} exampleApi).2
    exampleSortModel rfl (by decide) (by decide) 0

/-- Claim C4: with no grid api attached (which isolates the hydration step the
claim describes from the sort-annotation steps), hydration maps each input
column to the spread of the type-indexed default with the caller's column
(caller keys win), prepends exactly the fixed checkbox-selection definition
when the option is enabled and nothing otherwise; the checkbox column carries
the reserved identifier, which differs from every caller field that avoids the
reserved name. -/
theorem claim_hydrate_checkbox_prepend (columns : List ColDef) (options : GridOptions) :
    (hydrateColumns columns options { current := none }
      = withCheckbox options (mapWithDefaults columns))
    ∧ (options.checkboxSelection = true →
        hydrateColumns columns options { current := none }
          = checkboxSelectionColDef :: mapWithDefaults columns)
    ∧ (options.checkboxSelection = false →
        hydrateColumns columns options { current := none } = mapWithDefaults columns)
    ∧ jread checkboxSelectionColDef.field = JVal.val checkboxFieldName
    ∧ ((∀ c ∈ columns, jread c.field ≠ JVal.val checkboxFieldName) →
        ∀ c ∈ mapWithDefaults columns,
          jread c.field ≠ jread checkboxSelectionColDef.field) := by
  refine ⟨hydrateColumns_none_api columns options, ?_, ?_, rfl, ?_⟩
  · intro hcb
    rw [hydrateColumns_none_api, withCheckbox, if_pos hcb]
  · intro hcb
    rw [hydrateColumns_none_api, withCheckbox, if_neg (by simp [hcb])]
  · intro h c hc
    simp only [mapWithDefaults, List.mem_map] at hc
    obtain ⟨c0, hc0, rfl⟩ := hc
    have hfield : jread (mergeColDef (getColDef (jread c0.type)) c0).field
        = jread c0.field := by
      show jread (c0.field <|> none) = jread c0.field
      cases c0.field <;> rfl
    rw [hfield]
    intro hcontra
    exact absurd hcontra (h c0 hc0)

/-- Witness for C4: with checkbox selection enabled the synthetic column is
prepended ahead of the (merged) caller column, and its reserved identifier
differs from the caller's. -/
theorem claim_hydrate_checkbox_prepend_witness :
    (hydrateColumns [exampleColA] { checkboxSelection := true } { current := none }
      = checkboxSelectionColDef :: mapWithDefaults [exampleColA])
    ∧ (∀ c ∈ mapWithDefaults [exampleColA],
        jread c.field ≠ jread checkboxSelectionColDef.field) := by
  constructor
  · exact (claim_hydrate_checkbox_prepend [exampleColA] { checkboxSelection := true }).2.1 rfl
  · exact (claim_hydrate_checkbox_prepend [exampleColA] { checkboxSelection := true }).2.2.2.2
      (by decide)

/-- Claim C5, counterexample: the claim asserts visible length `N` for
every grid-options value, including checkbox selection enabled; with one
visible, identified input column and checkbox selection on, the derived
visible collection has length `2`, not `1`, because the synthetic checkbox
column is itself visible. -/
theorem claim_visible_length_counterexample :
    (resetState [exampleColA] { checkboxSelection := true } {}).visible.length = 2
    ∧ (resetState [exampleColA] { checkboxSelection := true } {}).meta.positions.length
        = 2 := by
  decide

/-- Claim C5, amended: for any input column list with `N` entries, none
hidden and all with non-null field identifiers, the visible collection and the
metadata's positions array have length `N` when checkbox selection is
disabled and `N + 1` when it is enabled (the prepended checkbox column is
visible), for every grid api ref. -/
theorem claim_visible_length (columns : List ColDef) (options : GridOptions)
    (apiRef : GridApiRef)
    (hfield : ∀ c ∈ columns, ∃ fc, jread c.field = JVal.val fc)
    (hhide : ∀ c ∈ columns, jread c.hide ≠ JVal.val true) :
    (resetState columns options apiRef).visible.length
      = columns.length + (if options.checkboxSelection then 1 else 0)
    ∧ (resetState columns options apiRef).meta.positions.length
      = columns.length + (if options.checkboxSelection then 1 else 0) := by
  have hvis : (resetState columns options apiRef).visible
      = filterVisible (hydrateColumns columns options apiRef) := rfl
  have hlen : (filterVisible (hydrateColumns columns options apiRef)).length
      = columns.length + (if options.checkboxSelection then 1 else 0) := by
    rw [filterVisible]
    rw [filter_length_eq_of_pointwise visibleColumn
      (hydrateColumns columns options apiRef)
      (withCheckbox options (mapWithDefaults columns))
      (hydrateColumns_vis columns options apiRef)]
    rw [show List.filter visibleColumn (withCheckbox options (mapWithDefaults columns))
        = filterVisible (withCheckbox options (mapWithDefaults columns)) from rfl]
    exact filterVisible_base_length columns options hfield hhide
  refine ⟨hvis ▸ hlen, ?_⟩
  have hmeta : (resetState columns options apiRef).meta
      = toMeta (filterVisible (hydrateColumns columns options apiRef)) := rfl
  rw [hmeta, toMeta_positions_length]
  exact hlen

/-- Witness for C5: at two visible identified columns with checkbox selection
enabled, the visible collection and positions array have length 3. -/
theorem claim_visible_length_witness :
    (resetState [exampleColA, exampleColC] { checkboxSelection := true } {}).visible.length
      = 3 := by
  have h := (claim_visible_length [exampleColA, exampleColC] { checkboxSelection := true } {}
    (by
      intro c hc
      simp only [List.mem_cons, List.not_mem_nil, or_false] at hc
      rcases hc with rfl | rfl
      · exact ⟨"a", rfl⟩
      · exact ⟨"c", rfl⟩)
    (by decide)).1
  simpa using h

/-- Claim C8, counterexample: the claim says a columns-updated event is
emitted exactly when state is recomputed because the input columns or options
changed; but the effect emits only when `apiRef.current` is attached.  Here
the state is recomputed (the effect runs) and no event is emitted. -/
theorem claim_columnsUpdated_counterexample :
    (columnsChangedEffect [exampleColA] {} { current := none }).2 = [] := by
  decide

/-- Claim C8, amended: when the grid api ref is attached, the
columns-changed effect emits exactly one columns-updated event carrying the
full hydrated column list; the mutators `updateColumn` and `updateColumns`
(and hence the sort-model reaction `onSortedColumns`) commit state without
emitting any event. -/
theorem claim_columnsUpdated_events (columns : List ColDef) (options : GridOptions)
    (api : GridApiModel) :
    ((columnsChangedEffect columns options { current := some api }).2
      = [GridEvent.columnsUpdated (resetState columns options { current := some api }).all])
    ∧ (∀ (apiRef : GridApiRef) (s : InternalColumns) (col : ColDef),
        (updateColumn apiRef s col).2 = [])
    ∧ (∀ (apiRef : GridApiRef) (s : InternalColumns) (cols : List ColDef),
        (updateColumns apiRef s cols).2 = [])
    ∧ (∀ (apiRef : GridApiRef) (sm : List SortItem) (s : ColumnsHookState),
        (onSortedColumns apiRef sm s).2 = []) := by
  refine ⟨?_, ?_, ?_, ?_⟩
  · simp [columnsChangedEffect, updateStateEvents]
  · intro apiRef s col
    simp [updateColumn, updateStateEvents]
  · intro apiRef s cols
    simp [updateColumns, updateStateEvents]
  · intro apiRef sm s
    simp only [onSortedColumns]
    repeat' split
    all_goals first
    | rfl
    | simp [updateColumns, updateStateEvents]

/-- Claim C9: the display-index accessor returns the position of the first
visible column with the given field (by linear search) and `-1` when no
visible column carries it; the pixel-start accessor returns
`positions[index]` for that display index and `undefined` (`none`) whenever
the index lookup fails. -/
theorem claim_columnIndex_position (s : InternalColumns) (f : String) :
    (getColumnIndex s f = -1 ↔ ∀ c ∈ s.visible, jread c.field ≠ JVal.val f)
    ∧ (∀ n : Nat, getColumnIndex s f = (n : Int) ↔
        ((∃ c, s.visible[n]? = some c ∧ jread c.field = JVal.val f)
          ∧ ∀ j : Nat, j < n → ∀ c, s.visible[j]? = some c → jread c.field ≠ JVal.val f))
    ∧ (getColumnIndex s f = -1 → getColumnPosition s f = none)
    ∧ (∀ n : Nat, getColumnIndex s f = (n : Int) →
        getColumnPosition s f = s.meta.positions[n]?) := by
  refine ⟨?_, ?_, ?_, ?_⟩
  · cases hidx : jsFindIndex (fun c => decide (jread c.field = JVal.val f)) s.visible with
    | none =>
      simp only [getColumnIndex, hidx]
      constructor
      · intro _ c hc hcontra
        have := (jsFindIndex_eq_none_iff _ s.visible).mp hidx c hc
        simp [hcontra] at this
      · intro _
        trivial
    | some k =>
      simp only [getColumnIndex, hidx]
      constructor
      · intro hcontra
        exact absurd hcontra (by omega)
      · intro hall
        obtain ⟨c, hc, hpc⟩ := jsFindIndex_found _ _ _ hidx
        exact absurd (of_decide_eq_true hpc) (hall c (List.getElem?_mem hc))
  · intro n
    cases hidx : jsFindIndex (fun c => decide (jread c.field = JVal.val f)) s.visible with
    | none =>
      simp only [getColumnIndex, hidx]
      constructor
      · intro hcontra
        exact absurd hcontra (by omega)
      · rintro ⟨⟨c, hc, hcf⟩, _⟩
        have := (jsFindIndex_eq_none_iff _ s.visible).mp hidx c (List.getElem?_mem hc)
        simp [hcf] at this
    | some k =>
      simp only [getColumnIndex, hidx]
      constructor
      · intro hkn
        have hkn' : k = n := by omega
        subst hkn'
        obtain ⟨c, hc, hpc⟩ := jsFindIndex_found _ _ _ hidx
        refine ⟨⟨c, hc, of_decide_eq_true hpc⟩, ?_⟩
        intro j hj c' hc' hcontra
        have := jsFindIndex_before _ _ _ hidx j hj c' hc'
        simp [hcontra] at this
      · rintro ⟨⟨c, hc, hcf⟩, hbefore⟩
        have : jsFindIndex (fun c => decide (jread c.field = JVal.val f)) s.visible
            = some n := by
          rw [jsFindIndex_eq_some_iff]
          refine ⟨⟨c, hc, by simp [hcf]⟩, ?_⟩
          intro j hj c' hc'
          have := hbefore j hj c' hc'
          simp [this]
        rw [hidx] at this
        simp only [Option.some.injEq] at this
        subst this
        rfl
  · intro h
    simp only [getColumnPosition, h]
    rfl
  · intro n h
    simp only [getColumnPosition, h]
    rw [if_neg (by omega)]
    simp

/-- Witness for C9: on the example state, field `c` has display index 1 and
pixel start offset 100; the hidden field `b` fails the lookup and yields
`undefined`. -/
theorem claim_columnIndex_position_witness :
    getColumnPosition (resetState exampleColumns {} {}) "c" = some (some 100)
    ∧ getColumnPosition (resetState exampleColumns {} {}) "b" = none := by
  constructor
  · rw [(claim_columnIndex_position (resetState exampleColumns {} {}) "c").2.2.2 1
      (by decide)]
    decide
  · exact (claim_columnIndex_position (resetState exampleColumns {} {}) "b").2.2.1
      (by decide)

/-- Claim C6: applying a patch keyed by a field identifier present in the
state changes only that column's entry in the ordered collection — the new
entry being the shallow merge of the existing definition with the patch, at
its original position — and only that key's entry in the lookup map; every
other entry of both is unchanged, and the visible columns and metadata are
re-derived from the updated collection.  (Assumes the grid's invariant of
unique present field identifiers.) -/
theorem claim_patch_frame (s : InternalColumns) (p : ColDef) (f : String) (i : Nat)
    (c : ColDef)
    (hfield : p.field = some (JVal.val f))
    (hi : s.all[i]? = some c)
    (hc : jread c.field = JVal.val f)
    (hnd : (presentFields s.all).Nodup) :
    (getUpdatedColumnState s [p]).all.length = s.all.length
    ∧ (getUpdatedColumnState s [p]).all[i]? = some (mergeColDef c p)
    ∧ (∀ j : Nat, j ≠ i → (getUpdatedColumnState s [p]).all[j]? = s.all[j]?)
    ∧ objGet (getUpdatedColumnState s [p]).lookup f = some (mergeColDef c p)
    ∧ (∀ k : String, k ≠ f →
        objGet (getUpdatedColumnState s [p]).lookup k = objGet s.lookup k)
    ∧ (getUpdatedColumnState s [p]).visible
        = filterVisible (getUpdatedColumnState s [p]).all
    ∧ (getUpdatedColumnState s [p]).meta
        = toMeta (filterVisible (getUpdatedColumnState s [p]).all) := by
  have hpf : jread p.field = JVal.val f := by rw [hfield]; rfl
  have hidx : jsFindIndex (fun mc => decide (jread mc.field = jread p.field)) s.all
      = some i := by
    simp only [hpf]
    exact jsFindIndex_field_unique s.all hnd i c hi f hc
  have hall : (getUpdatedColumnState s [p]).all = s.all.set i (mergeColDef c p) := by
    have h1 : (getUpdatedColumnState s [p]).all = (applyColumnUpdate s p).all := rfl
    rw [h1, applyColumnUpdate_all, updateFirstMatching_eq_set _ _ _ i c hidx hi]
  have hlk : (getUpdatedColumnState s [p]).lookup
      = objInsert s.lookup f (mergeColDef c p) := by
    have h1 : (getUpdatedColumnState s [p]).lookup = (applyColumnUpdate s p).lookup := rfl
    rw [h1, applyColumnUpdate_lookup]
    simp only [hidx, hi, Option.getD_some]
    rw [hpf]
    rfl
  have hlen : i < s.all.length := by
    by_contra hge
    rw [List.getElem?_eq_none (by omega)] at hi
    cases hi
  refine ⟨?_, ?_, ?_, ?_, ?_, rfl, rfl⟩
  · rw [hall, List.length_set]
  · rw [hall]
    rw [List.getElem?_set_self]
    exact hlen
  · intro j hj
    rw [hall, List.getElem?_set_ne (fun hh => hj hh.symm)]
  · rw [hlk]
    exact objGet_objInsert_self s.lookup f (mergeColDef c p)
  · intro k hk
    rw [hlk]
    exact objGet_objInsert_ne s.lookup f k (mergeColDef c p) hk

/-- Witness for C6: patching the width of field `a` in the example state
leaves the entry at index 1 of the ordered collection and the lookup entry of
field `c` unchanged, and updates the entry of `a`. -/
theorem claim_patch_frame_witness :
    (getUpdatedColumnState (resetState exampleColumns {} {})
       [{ field := some (JVal.val "a"), width := some (JVal.val 200) }]).all[1]?
      = (resetState exampleColumns {} {}).all[1]?
    ∧ objGet (getUpdatedColumnState (resetState exampleColumns {} {})
       [{ field := some (JVal.val "a"), width := some (JVal.val 200) }]).lookup "c"
      = objGet (resetState exampleColumns {} {}).lookup "c" := by
  constructor
  · exact (claim_patch_frame (resetState exampleColumns {} {})
      { field := some (JVal.val "a"), width := some (JVal.val 200) } "a" 0
      (mergeColDef (getColDef (jread exampleColA.type)) exampleColA)
      rfl (by decide) (by decide) (by decide)).2.2.1 1 (by decide)
  · exact (claim_patch_frame (resetState exampleColumns {} {})
      { field := some (JVal.val "a"), width := some (JVal.val 200) } "a" 0
      (mergeColDef (getColDef (jread exampleColA.type)) exampleColA)
      rfl (by decide) (by decide) (by decide)).2.2.2.2.1 "c" (by decide)

/-- One patch step preserves the lookup invariant, field presence and the
present-fields list (assuming the patch names a present field and fields are
unique). -/
theorem applyColumnUpdate_consistent (st : InternalColumns) (q : ColDef) (fq : String)
    (hq : q.field = some (JVal.val fq))
    (hmem : fq ∈ presentFields st.all)
    (hall : ∀ c ∈ st.all, ∃ fc, jread c.field = JVal.val fc)
    (hnd : (presentFields st.all).Nodup)
    (hlk : st.lookup = toLookup st.all) :
    (applyColumnUpdate st q).lookup = toLookup (applyColumnUpdate st q).all
    ∧ (∀ c ∈ (applyColumnUpdate st q).all, ∃ fc, jread c.field = JVal.val fc)
    ∧ presentFields (applyColumnUpdate st q).all = presentFields st.all := by
  obtain ⟨i, c, hi, hc⟩ := exists_getElem?_of_mem_presentFields st.all fq hmem
  have hpf : jread q.field = JVal.val fq := by rw [hq]; rfl
  have hidx : jsFindIndex (fun mc => decide (jread mc.field = jread q.field)) st.all
      = some i := by
    simp only [hpf]
    exact jsFindIndex_field_unique st.all hnd i c hi fq hc
  have hall' : (applyColumnUpdate st q).all = st.all.set i (mergeColDef c q) := by
    rw [applyColumnUpdate_all, updateFirstMatching_eq_set _ _ _ i c hidx hi]
  have hmergef : jread (mergeColDef c q).field = JVal.val fq := by
    show jread (q.field <|> c.field) = JVal.val fq
    rw [hq]
    rfl
  refine ⟨?_, ?_, ?_⟩
  · rw [applyColumnUpdate_lookup]
    simp only [hidx, hi, Option.getD_some]
    rw [hall', hlk, hpf]
    exact (toLookup_set st.all i c (mergeColDef c q) ((JVal.val fq).toKey)
      hi (by rw [hc]) (by rw [hmergef])
      (by rw [keys_eq_presentFields st.all hall]; exact hnd)).symm
  · intro d hd
    rw [hall'] at hd
    rcases List.mem_or_eq_of_mem_set hd with hmem' | rfl
    · exact hall d hmem'
    · exact ⟨fq, hmergef⟩
  · rw [hall']
    exact presentFields_set st.all i c (mergeColDef c q) hi (by rw [hmergef, hc])

/-- The patch fold preserves the lookup invariant. -/
theorem foldl_applyColumnUpdate_lookup : ∀ (patches : List ColDef) (st : InternalColumns),
    (∀ c ∈ st.all, ∃ fc, jread c.field = JVal.val fc) →
    (presentFields st.all).Nodup →
    st.lookup = toLookup st.all →
    (∀ q ∈ patches, ∃ fq, q.field = some (JVal.val fq) ∧ fq ∈ presentFields st.all) →
    (List.foldl applyColumnUpdate st patches).lookup
      = toLookup (List.foldl applyColumnUpdate st patches).all
  | [], _, _, _, hlk, _ => hlk
  | q :: rest, st, hall, hnd, hlk, hp => by
    obtain ⟨fq, hq, hmem⟩ := hp q (List.mem_cons_self q rest)
    obtain ⟨hlk', hall', hpf'⟩ := applyColumnUpdate_consistent st q fq hq hmem hall hnd hlk
    simp only [List.foldl_cons]
    exact foldl_applyColumnUpdate_lookup rest (applyColumnUpdate st q) hall'
      (by rw [hpf']; exact hnd) hlk'
      (fun q' hq' => by
        obtain ⟨fq', hq'', hmem'⟩ := hp q' (List.mem_cons_of_mem q hq')
        exact ⟨fq', hq'', by rw [hpf']; exact hmem'⟩)

/-- Claim C7: every committed column state is internally consistent — the
visible collection is the filter of the full collection, the metadata is
derived from the visible collection, the lookup map is the fold of the full
collection keyed by field identifier, and the two flags reflect the lengths —
both after a full recomputation (`resetState`) and after a patch update
(`getUpdatedColumnState`, under the grid's invariant of unique present field
identifiers and patches naming present fields). -/
theorem claim_state_consistency :
    (∀ (columns : List ColDef) (options : GridOptions) (apiRef : GridApiRef),
      consistentState (resetState columns options apiRef))
    ∧ (∀ (s : InternalColumns) (patches : List ColDef),
        consistentState s →
        (∀ c ∈ s.all, ∃ fc, jread c.field = JVal.val fc) →
        (presentFields s.all).Nodup →
        (∀ q ∈ patches, ∃ fq, q.field = some (JVal.val fq) ∧ fq ∈ presentFields s.all) →
        consistentState (getUpdatedColumnState s patches)) := by
  constructor
  · intro columns options apiRef
    exact ⟨rfl, rfl, rfl, rfl, rfl⟩
  · intro s patches hcons hall hnd hp
    refine ⟨rfl, rfl, ?_, rfl, rfl⟩
    exact foldl_applyColumnUpdate_lookup patches s hall hnd hcons.2.2.1 hp

/-- Witness for C7: consistency holds after patching the width of field `a`
in the example state. -/
theorem claim_state_consistency_witness :
    consistentState (getUpdatedColumnState (resetState exampleColumns {} {})
      [{ field := some (JVal.val "a"), width := some (JVal.val 120) }]) := by
  have hdec : ∀ c ∈ (resetState exampleColumns {} {}).all,
      (jread c.field).isNullish = false := by decide
  exact claim_state_consistency.2 (resetState exampleColumns {} {})
    [{ field := some (JVal.val "a"), width := some (JVal.val 120) }]
    ⟨rfl, rfl, rfl, rfl, rfl⟩
    (fun c hc => exists_val_of_not_nullish _ (hdec c hc))
    (by decide)
    (fun q hq => by
      simp only [List.mem_cons, List.not_mem_nil, or_false] at hq
      subst hq
      exact ⟨"a", rfl, by decide⟩)

/-- Claim C10: applying the same patch (naming a column present in the full
collection) twice in succession yields exactly the state obtained by applying
it once — full collection, lookup, visible collection, metadata and flags. -/
theorem claim_patch_idempotent (s : InternalColumns) (p : ColDef) (f : String)
    (hfield : p.field = some (JVal.val f))
    (hpresent : ∃ (i : Nat) (c : ColDef), s.all[i]? = some c ∧ jread c.field = JVal.val f) :
    getUpdatedColumnState (getUpdatedColumnState s [p]) [p]
      = getUpdatedColumnState s [p] := by
  have hpf : jread p.field = JVal.val f := by rw [hfield]; rfl
  obtain ⟨i, c, hi, hc⟩ := hpresent
  have hpc : decide (jread c.field = jread p.field) = true := by
    rw [hpf, hc]
    simp
  obtain ⟨k, hk, _⟩ := jsFindIndex_le_of_found
    (fun mc => decide (jread mc.field = jread p.field)) s.all i c hi hpc
  obtain ⟨ck, hck, hpck⟩ := jsFindIndex_found _ _ _ hk
  have hklen : k < s.all.length := by
    by_contra hge
    rw [List.getElem?_eq_none (by omega)] at hck
    cases hck
  have hall1 : (getUpdatedColumnState s [p]).all = s.all.set k (mergeColDef ck p) := by
    have h1 : (getUpdatedColumnState s [p]).all = (applyColumnUpdate s p).all := rfl
    rw [h1, applyColumnUpdate_all, updateFirstMatching_eq_set _ _ _ k ck hk hck]
  have hlk1 : (getUpdatedColumnState s [p]).lookup
      = objInsert s.lookup (jread p.field).toKey (mergeColDef ck p) := by
    have h1 : (getUpdatedColumnState s [p]).lookup = (applyColumnUpdate s p).lookup := rfl
    rw [h1, applyColumnUpdate_lookup]
    simp only [hk, hck, Option.getD_some]
  have hmf : jread (mergeColDef ck p).field = jread p.field := by
    show jread (p.field <|> ck.field) = jread p.field
    rw [hfield]
    rfl
  have hset : (s.all.set k (mergeColDef ck p))[k]? = some (mergeColDef ck p) := by
    rw [List.getElem?_set_self]
    exact hklen
  have hk2 : jsFindIndex (fun mc => decide (jread mc.field = jread p.field))
      (s.all.set k (mergeColDef ck p)) = some k := by
    rw [jsFindIndex_eq_some_iff]
    refine ⟨⟨mergeColDef ck p, hset, by rw [hmf]; simp⟩, ?_⟩
    intro j hj a ha
    rw [List.getElem?_set_ne (by omega : k ≠ j)] at ha
    exact jsFindIndex_before _ _ _ hk j hj a ha
  have hall2 : (applyColumnUpdate (getUpdatedColumnState s [p]) p).all
      = (getUpdatedColumnState s [p]).all := by
    rw [applyColumnUpdate_all]
    rw [show (getUpdatedColumnState s [p]).all = s.all.set k (mergeColDef ck p) from hall1]
    rw [updateFirstMatching_eq_set _ _ _ k (mergeColDef ck p) hk2 hset]
    rw [mergeColDef_idem, List.set_set]
  have hlk2 : (applyColumnUpdate (getUpdatedColumnState s [p]) p).lookup
      = (getUpdatedColumnState s [p]).lookup := by
    rw [applyColumnUpdate_lookup]
    have hfind : jsFindIndex (fun mc => decide (jread mc.field = jread p.field))
        (getUpdatedColumnState s [p]).all = some k := by
      rw [hall1]
      exact hk2
    simp only [hfind]
    rw [show (getUpdatedColumnState s [p]).all = s.all.set k (mergeColDef ck p) from hall1]
    simp only [hset, Option.getD_some]
    rw [mergeColDef_idem, hlk1, objInsert_objInsert_same]
  have hva : (getUpdatedColumnState (getUpdatedColumnState s [p]) [p]).all
      = (getUpdatedColumnState s [p]).all := by
    have h1 : (getUpdatedColumnState (getUpdatedColumnState s [p]) [p]).all
        = (applyColumnUpdate (getUpdatedColumnState s [p]) p).all := rfl
    rw [h1, hall2]
  have hvl : (getUpdatedColumnState (getUpdatedColumnState s [p]) [p]).lookup
      = (getUpdatedColumnState s [p]).lookup := by
    have h1 : (getUpdatedColumnState (getUpdatedColumnState s [p]) [p]).lookup
        = (applyColumnUpdate (getUpdatedColumnState s [p]) p).lookup := rfl
    rw [h1, hlk2]
  have hvis : (getUpdatedColumnState (getUpdatedColumnState s [p]) [p]).visible
      = (getUpdatedColumnState s [p]).visible := by
    have h1 : (getUpdatedColumnState (getUpdatedColumnState s [p]) [p]).visible
        = filterVisible (getUpdatedColumnState (getUpdatedColumnState s [p]) [p]).all := rfl
    have h2 : (getUpdatedColumnState s [p]).visible
        = filterVisible (getUpdatedColumnState s [p]).all := rfl
    rw [h1, h2, hva]
  have hmeta : (getUpdatedColumnState (getUpdatedColumnState s [p]) [p]).meta
      = (getUpdatedColumnState s [p]).meta := by
    have h1 : (getUpdatedColumnState (getUpdatedColumnState s [p]) [p]).meta
        = toMeta (filterVisible (getUpdatedColumnState (getUpdatedColumnState s [p]) [p]).all)
        := rfl
    have h2 : (getUpdatedColumnState s [p]).meta
        = toMeta (filterVisible (getUpdatedColumnState s [p]).all) := rfl
    rw [h1, h2, hva]
  have hhc : (getUpdatedColumnState (getUpdatedColumnState s [p]) [p]).hasColumns
      = (getUpdatedColumnState s [p]).hasColumns := by
    have h1 : (getUpdatedColumnState (getUpdatedColumnState s [p]) [p]).hasColumns
        = decide (0 < (getUpdatedColumnState (getUpdatedColumnState s [p]) [p]).all.length)
        := rfl
    have h2 : (getUpdatedColumnState s [p]).hasColumns
        = decide (0 < (getUpdatedColumnState s [p]).all.length) := rfl
    rw [h1, h2, hva]
  have hhv : (getUpdatedColumnState (getUpdatedColumnState s [p]) [p]).hasVisibleColumns
      = (getUpdatedColumnState s [p]).hasVisibleColumns := by
    have h1 : (getUpdatedColumnState (getUpdatedColumnState s [p]) [p]).hasVisibleColumns
        = decide
          (0 < (getUpdatedColumnState (getUpdatedColumnState s [p]) [p]).visible.length)
        := rfl
    have h2 : (getUpdatedColumnState s [p]).hasVisibleColumns
        = decide (0 < (getUpdatedColumnState s [p]).visible.length) := rfl
    rw [h1, h2, hvis]
  exact InternalColumns.ext hva hvis hmeta hvl hhc hhv

/-- Witness for C10: the concrete width patch of field `a` on the example
state is idempotent. -/
theorem claim_patch_idempotent_witness :
    getUpdatedColumnState (getUpdatedColumnState (resetState exampleColumns {} {})
        [{ field := some (JVal.val "a"), width := some (JVal.val 200) }])
      [{ field := some (JVal.val "a"), width := some (JVal.val 200) }]
      = getUpdatedColumnState (resetState exampleColumns {} {})
        [{ field := some (JVal.val "a"), width := some (JVal.val 200) }] := by
  exact claim_patch_idempotent (resetState exampleColumns {} {})
    { field := some (JVal.val "a"), width := some (JVal.val 200) } "a" rfl
    ⟨0, mergeColDef (getColDef (jread exampleColA.type)) exampleColA, by decide, by decide⟩

/-- Pointwise fold of per-item first-match updates without assuming distinct
item keys: under distinct present fields, each column absorbs, in order, every
item whose key equals its field (so a later item overrides an earlier one with
the same key). -/
theorem foldl_updateFirstMatching_getElem_all {β : Type}
    (key : β → JVal String) (upd : β → ColDef → ColDef) :
    ∀ (items : List β) (cols : List ColDef),
    (∀ b ∈ items, ∃ s, key b = JVal.val s) →
    (∀ b c, jread c.field = key b → jread (upd b c).field = jread c.field) →
    (presentFields cols).Nodup →
    ∀ i : Nat, (List.foldl (fun cs b =>
            updateFirstMatching (fun mc => decide (jread mc.field = key b)) (upd b) cs)
          cols items)[i]?
      = (cols[i]?).map (fun c =>
          List.foldl (fun c' q => if jread c.field = key q then upd q c' else c') c items)
  | [], cols, _, _, _, i => by
    simp only [List.foldl_nil]
    cases hc : cols[i]? <;> simp [hc]
  | b :: rest, cols, hkey, hupd, hf, i => by
    obtain ⟨s, hs⟩ := hkey b (List.mem_cons_self b rest)
    have hkey' : ∀ b' ∈ rest, ∃ s, key b' = JVal.val s :=
      fun b' hb' => hkey b' (List.mem_cons_of_mem b hb')
    simp only [List.foldl_cons]
    rcases hidx : jsFindIndex (fun mc => decide (jread mc.field = key b)) cols with _ | k
    · rw [updateFirstMatching_of_none _ _ _ hidx]
      rw [foldl_updateFirstMatching_getElem_all key upd rest cols hkey' hupd hf i]
      cases hc : cols[i]? with
      | none => simp
      | some c =>
        have hpb : ¬ (jread c.field = key b) := by
          intro hcontra
          obtain ⟨n, hn, _⟩ :=
            jsFindIndex_le_of_found (fun mc => decide (jread mc.field = key b)) cols i c hc
              (by simpa using hcontra)
          rw [hidx] at hn
          cases hn
        simp only [Option.map_some', List.foldl_cons]
        rw [if_neg hpb]
    · obtain ⟨ck, hck, hpck⟩ := jsFindIndex_found _ _ _ hidx
      have hckf : jread ck.field = key b := of_decide_eq_true hpck
      have hf1 : presentFields
          (updateFirstMatching (fun mc => decide (jread mc.field = key b)) (upd b) cols)
          = presentFields cols :=
        updateFirstMatching_presentFields _ _ cols
          (fun c hpc => hupd b c (of_decide_eq_true hpc))
      rw [foldl_updateFirstMatching_getElem_all key upd rest _ hkey' hupd
        (by rw [hf1]; exact hf) i]
      rw [updateFirstMatching_getElem? _ _ _ k hidx i]
      by_cases hik : i = k
      · subst hik
        rw [if_pos rfl, hck]
        simp only [Option.map_some', List.foldl_cons]
        rw [if_pos hckf, hupd b ck hckf]
      · rw [if_neg hik]
        cases hc : cols[i]? with
        | none => simp
        | some c =>
          have hpb : ¬ (jread c.field = key b) := by
            intro hcontra
            have hcf : jread c.field = JVal.val s := by
              rw [← hs]
              exact hcontra
            have huniq := jsFindIndex_field_unique cols hf i c hc s hcf
            simp only [hs] at hidx
            rw [hidx] at huniq
            exact hik (Option.some.injEq .. ▸ (by cases huniq; rfl))
          simp only [Option.map_some', List.foldl_cons]
          rw [if_neg hpb]

/-- The patch loop of `getUpdatedColumnState`, pointwise, without assuming
distinct patch keys: each column absorbs, in order, every patch whose field
matches its own (the last matching patch wins on conflicting keys). -/
theorem getUpdatedColumnState_all_foldl (s : InternalColumns) (patches : List ColDef)
    (hf : (presentFields s.all).Nodup)
    (hp : ∀ q ∈ patches, ∃ fq, q.field = some (JVal.val fq)) (i : Nat) :
    (getUpdatedColumnState s patches).all[i]?
      = (s.all[i]?).map (fun c =>
          List.foldl (fun c' q => if jread c.field = jread q.field then mergeColDef c' q
                                  else c') c patches) := by
  have hall : (getUpdatedColumnState s patches).all
      = (List.foldl applyColumnUpdate s patches).all := rfl
  rw [hall, foldl_applyColumnUpdate_all]
  exact foldl_updateFirstMatching_getElem_all (fun q => jread q.field)
    (fun q c => mergeColDef c q) patches s.all
    (fun q hq => by
      obtain ⟨fq, hfq⟩ := hp q hq
      exact ⟨fq, by simp [jread, hfq]⟩)
    (fun q c hqc => mergeColDef_field_jread c q hqc)
    hf i

/-- A fold of matching merges over patches none of which match the column
leaves the accumulator unchanged. -/
theorem foldl_patch_no_match (c : ColDef) :
    ∀ (qs : List ColDef) (acc : ColDef),
    (∀ q ∈ qs, ¬ (jread c.field = jread q.field)) →
    List.foldl (fun c' q => if jread c.field = jread q.field then mergeColDef c' q else c')
      acc qs = acc
  | [], _, _ => rfl
  | q :: t, acc, h => by
    simp only [List.foldl_cons]
    rw [if_neg (h q (List.mem_cons_self q t))]
    exact foldl_patch_no_match c t acc (fun q' hq' => h q' (List.mem_cons_of_mem q hq'))

/-- Folding the clear-patches of a field list over a column whose field is in
the list merges exactly one clear-patch into the accumulator (duplicate
occurrences are absorbed by idempotence of the spread). -/
theorem foldl_clear_mem (c : ColDef) (f : String) (hc : jread c.field = JVal.val f) :
    ∀ (prev : List String) (acc : ColDef), f ∈ prev →
    List.foldl (fun c' q => if jread c.field = jread q.field then mergeColDef c' q else c')
      acc (List.map clearPatch prev) = mergeColDef acc (clearPatch f)
  | [], _, h => by cases h
  | g :: t, acc, h => by
    by_cases hfg : f = g
    · subst hfg
      simp only [List.map_cons, List.foldl_cons]
      rw [if_pos (show jread c.field = jread (clearPatch f).field from hc)]
      by_cases hft : f ∈ t
      · rw [foldl_clear_mem c f hc t (mergeColDef acc (clearPatch f)) hft]
        exact mergeColDef_idem acc (clearPatch f)
      · refine foldl_patch_no_match c (List.map clearPatch t) _ ?_
        intro q hq
        simp only [List.mem_map] at hq
        obtain ⟨g', hg', rfl⟩ := hq
        rw [hc]
        show ¬ (JVal.val f = JVal.val g')
        intro heq
        have h2 : f = g' := JVal.val.inj heq
        exact hft (by rw [h2]; exact hg')
    · have hne2 : ¬ (jread c.field = jread (clearPatch g).field) := by
        rw [hc]
        show ¬ (JVal.val f = JVal.val g)
        intro heq
        exact hfg (JVal.val.inj heq)
      simp only [List.map_cons, List.foldl_cons]
      rw [if_neg hne2]
      have hft : f ∈ t := by
        rcases List.mem_cons.mp h with h1 | h1
        · exact absurd h1 hfg
        · exact h1
      exact foldl_clear_mem c f hc t acc hft

/-- A column none of whose previously annotated fields match is untouched by
the clear-patches. -/
theorem foldl_clear_no_match (c : ColDef) (prev : List String) (acc : ColDef)
    (h : ∀ g ∈ prev, ¬ (jread c.field = JVal.val g)) :
    List.foldl (fun c' q => if jread c.field = jread q.field then mergeColDef c' q else c')
      acc (List.map clearPatch prev) = acc := by
  refine foldl_patch_no_match c (List.map clearPatch prev) acc ?_
  intro q hq
  simp only [List.mem_map] at hq
  obtain ⟨g, hg, rfl⟩ := hq
  exact h g hg

/-- Folding the set-patches of a model (enumerated from `n`) over a column
matching the entry at position `idx` merges exactly that entry's set-patch
(the model's fields being distinct, no other entry matches). -/
theorem foldl_set_found (c : ColDef) (it : SortItem)
    (hc : jread c.field = JVal.val it.colId) (L : Nat) :
    ∀ (sm : List SortItem) (n idx : Nat) (acc : ColDef),
    (List.map SortItem.colId sm).Nodup → sm[idx]? = some it →
    List.foldl (fun c' q => if jread c.field = jread q.field then mergeColDef c' q else c')
      acc (List.map (fun p => setPatch L p.1 p.2) (List.enumFrom n sm))
      = mergeColDef acc (setPatch L (n + idx) it)
  | [], _, idx, _, _, hi => by simp at hi
  | x :: rest, n, 0, acc, hnd, hi => by
    simp only [List.getElem?_cons_zero, Option.some.injEq] at hi
    subst it
    rw [show List.map (fun p => setPatch L p.1 p.2) (List.enumFrom n (x :: rest))
        = setPatch L n x
          :: List.map (fun p => setPatch L p.1 p.2) (List.enumFrom (n + 1) rest)
      from rfl]
    simp only [List.foldl_cons]
    rw [if_pos (show jread c.field = jread (setPatch L n x).field from hc)]
    have hnm : ∀ q ∈ List.map (fun p => setPatch L p.1 p.2) (List.enumFrom (n + 1) rest),
        ¬ (jread c.field = jread q.field) := by
      intro q hq
      simp only [List.mem_map] at hq
      obtain ⟨p, hp, rfl⟩ := hq
      rw [hc]
      show ¬ (JVal.val x.colId = JVal.val p.2.colId)
      intro heq
      have h2 : x.colId = p.2.colId := JVal.val.inj heq
      simp only [List.map_cons, List.nodup_cons] at hnd
      have hmem : x.colId ∈ List.map SortItem.colId rest := by
        rw [h2]
        exact List.mem_map_of_mem SortItem.colId (List.snd_mem_of_mem_enumFrom hp)
      exact hnd.1 hmem
    rw [foldl_patch_no_match c _ _ hnm, Nat.add_zero]
  | x :: rest, n, idx + 1, acc, hnd, hi => by
    simp only [List.getElem?_cons_succ] at hi
    have hxne : ¬ (jread c.field = jread (setPatch L n x).field) := by
      rw [hc]
      show ¬ (JVal.val it.colId = JVal.val x.colId)
      intro heq
      have h2 : it.colId = x.colId := JVal.val.inj heq
      simp only [List.map_cons, List.nodup_cons] at hnd
      have hmem : x.colId ∈ List.map SortItem.colId rest := by
        rw [← h2]
        exact List.mem_map_of_mem SortItem.colId (List.getElem?_mem hi)
      exact hnd.1 hmem
    rw [show List.map (fun p => setPatch L p.1 p.2) (List.enumFrom n (x :: rest))
        = setPatch L n x
          :: List.map (fun p => setPatch L p.1 p.2) (List.enumFrom (n + 1) rest)
      from rfl]
    simp only [List.foldl_cons]
    rw [if_neg hxne]
    rw [foldl_set_found c it hc L rest (n + 1) idx acc
      (by simp only [List.map_cons, List.nodup_cons] at hnd; exact hnd.2) hi]
    have harith : n + 1 + idx = n + (idx + 1) := by omega
    rw [harith]

/-- A column matching no entry of the model is untouched by the set-patches. -/
theorem foldl_set_no_match (c : ColDef) (L : Nat) (sm : List SortItem) (n : Nat)
    (acc : ColDef) (h : ∀ it ∈ sm, ¬ (jread c.field = JVal.val it.colId)) :
    List.foldl (fun c' q => if jread c.field = jread q.field then mergeColDef c' q else c')
      acc (List.map (fun p => setPatch L p.1 p.2) (List.enumFrom n sm)) = acc := by
  refine foldl_patch_no_match c _ acc ?_
  intro q hq
  simp only [List.mem_map] at hq
  obtain ⟨p, hp, rfl⟩ := hq
  exact h p.2 (List.snd_mem_of_mem_enumFrom hp)

/-- Every reaction remembers exactly the new model's fields. -/
theorem onSortedColumns_sortedColFields (apiRef : GridApiRef) (sm : List SortItem)
    (s : ColumnsHookState) :
    (onSortedColumns apiRef sm s).1.sortedColFields = List.map SortItem.colId sm := by
  simp only [onSortedColumns]
  repeat' split
  all_goals rfl

/-- When at least one patch exists (a previously annotated field or a model
entry), the reaction commits, as a single `updateColumns` application, the
clear-patches for the previously annotated fields followed by the model's
set-patches. -/
theorem onSortedColumns_internal_eq (apiRef : GridApiRef) (s : ColumnsHookState)
    (sm : List SortItem) (hne : s.sortedColFields ≠ [] ∨ sm ≠ []) :
    (onSortedColumns apiRef sm s).1.internal
      = getUpdatedColumnState s.internal
          (List.map clearPatch s.sortedColFields
            ++ List.map (fun p => setPatch sm.length p.1 p.2) sm.enum) := by
  have hpos : 0 < (List.map
      (fun f => ({ field := some (JVal.val f), sortDirection := some JVal.null,
                   sortIndex := some JVal.undef } : ColDef))
      s.sortedColFields
      ++ List.map
      (fun p => ({ field := some (JVal.val p.2.colId), sortDirection := some p.2.sort,
                   sortIndex := some (if 1 < sm.length then JVal.val (p.1 + 1)
                                      else JVal.undef) } : ColDef))
      sm.enum).length := by
    simp only [List.length_append, List.length_map, List.enum_length]
    rcases hne with h | h
    · have := List.length_pos.mpr h
      omega
    · have := List.length_pos.mpr h
      omega
  simp only [onSortedColumns, updateColumns]
  rw [if_pos hpos]
  rfl

/-- Pointwise effect of one reaction on the committed columns: each column
absorbs, in order, its matching clear-patches then its matching set-patches. -/
theorem onSortedColumns_all_getElem_fold (apiRef : GridApiRef) (s : ColumnsHookState)
    (sm : List SortItem) (hf : (presentFields s.internal.all).Nodup)
    (hne : s.sortedColFields ≠ [] ∨ sm ≠ []) (i : Nat) :
    (onSortedColumns apiRef sm s).1.internal.all[i]?
      = (s.internal.all[i]?).map (fun c =>
          List.foldl (fun c' q => if jread c.field = jread q.field then mergeColDef c' q
                                  else c') c
            (List.map clearPatch s.sortedColFields
              ++ List.map (fun p => setPatch sm.length p.1 p.2) sm.enum)) := by
  rw [onSortedColumns_internal_eq apiRef s sm hne]
  refine getUpdatedColumnState_all_foldl s.internal _ hf ?_ i
  intro q hq
  rcases List.mem_append.mp hq with hq | hq
  · simp only [List.mem_map] at hq
    obtain ⟨g, _, rfl⟩ := hq
    exact ⟨g, rfl⟩
  · simp only [List.mem_map] at hq
    obtain ⟨p, _, rfl⟩ := hq
    exact ⟨p.2.colId, rfl⟩

/-- Claim C3: on every post-sort notification carrying a new sort model, the
reaction commits, as one state update, the clear-patches (direction `null`,
priority `undefined`) for exactly the fields annotated by the previous
reaction followed by the set-patches for the new model's entries (priority
`idx + 1` when the model has more than one entry, `undefined` when it has
one), and remembers the new model's fields.  Consequently each model entry's
column ends with that entry's direction and priority — also when the field was
annotated before, the later set-patch overriding its clear-patch — every
previously annotated field not in the new model ends cleared, every other
column is untouched, and re-applying an empty model afterwards clears
direction and priority on every field of the model and empties the memory,
leaving no stale annotation.  (Assumes the grid's invariant of unique present
field identifiers, and model entries and previously annotated fields naming
existing columns, the model's fields distinct.) -/
theorem claim_sort_reaction (apiRef : GridApiRef) (s : ColumnsHookState)
    (sm : List SortItem)
    (hf : (presentFields s.internal.all).Nodup)
    (hnd : (List.map SortItem.colId sm).Nodup)
    (hin : ∀ it ∈ sm, it.colId ∈ presentFields s.internal.all)
    (hprevin : ∀ f ∈ s.sortedColFields, f ∈ presentFields s.internal.all) :
    (onSortedColumns apiRef sm s).1.sortedColFields = List.map SortItem.colId sm
    ∧ ((s.sortedColFields ≠ [] ∨ sm ≠ []) →
        (onSortedColumns apiRef sm s).1.internal
          = getUpdatedColumnState s.internal
              (List.map clearPatch s.sortedColFields
                ++ List.map (fun p => setPatch sm.length p.1 p.2) sm.enum))
    ∧ (∀ (idx : Nat) (it : SortItem), sm[idx]? = some it →
        ∃ (i : Nat) (c' : ColDef),
          (onSortedColumns apiRef sm s).1.internal.all[i]? = some c'
          ∧ jread c'.field = JVal.val it.colId
          ∧ jread c'.sortDirection = it.sort
          ∧ jread c'.sortIndex
              = (if 1 < sm.length then JVal.val (idx + 1) else JVal.undef))
    ∧ (∀ f ∈ s.sortedColFields, f ∉ List.map SortItem.colId sm →
        ∃ (i : Nat) (c' : ColDef),
          (onSortedColumns apiRef sm s).1.internal.all[i]? = some c'
          ∧ jread c'.field = JVal.val f
          ∧ jread c'.sortDirection = JVal.null
          ∧ jread c'.sortIndex = JVal.undef)
    ∧ (∀ (i : Nat) (c : ColDef), s.internal.all[i]? = some c →
        (∀ it ∈ sm, jread c.field ≠ JVal.val it.colId) →
        (∀ f ∈ s.sortedColFields, jread c.field ≠ JVal.val f) →
        (onSortedColumns apiRef sm s).1.internal.all[i]? = some c)
    ∧ (onSortedColumns apiRef [] (onSortedColumns apiRef sm s).1).1.sortedColFields = []
    ∧ (∀ it ∈ sm, ∃ (i : Nat) (c' : ColDef),
        (onSortedColumns apiRef [] (onSortedColumns apiRef sm s).1).1.internal.all[i]?
          = some c'
        ∧ jread c'.field = JVal.val it.colId
        ∧ jread c'.sortDirection = JVal.null
        ∧ jread c'.sortIndex = JVal.undef) := by
  refine ⟨onSortedColumns_sortedColFields apiRef sm s,
    fun hne => onSortedColumns_internal_eq apiRef s sm hne, ?_, ?_, ?_, ?_, ?_⟩
  · -- set behavior: the entry's column gets direction and priority, a
    -- preceding clear-patch for the same field being overridden
    intro idx it hidxit
    have hmemsm : it ∈ sm := List.getElem?_mem hidxit
    have hne' : s.sortedColFields ≠ [] ∨ sm ≠ [] := Or.inr (List.ne_nil_of_mem hmemsm)
    obtain ⟨i, c, hi, hc⟩ := exists_getElem?_of_mem_presentFields _ _ (hin it hmemsm)
    have hfold := onSortedColumns_all_getElem_fold apiRef s sm hf hne' i
    rw [hi] at hfold
    simp only [Option.map_some'] at hfold
    rw [List.foldl_append] at hfold
    rw [show sm.enum = List.enumFrom 0 sm from rfl] at hfold
    by_cases hfprev : it.colId ∈ s.sortedColFields
    · rw [foldl_clear_mem c it.colId hc s.sortedColFields c hfprev] at hfold
      rw [foldl_set_found c it hc sm.length sm 0 idx _ hnd hidxit] at hfold
      simp only [Nat.zero_add] at hfold
      exact ⟨i, _, hfold, rfl, rfl, rfl⟩
    · have hnp : ∀ g ∈ s.sortedColFields, ¬ (jread c.field = JVal.val g) := by
        intro g hg heq
        rw [hc] at heq
        have h2 : it.colId = g := JVal.val.inj heq
        exact hfprev (by rw [h2]; exact hg)
      rw [foldl_clear_no_match c s.sortedColFields c hnp] at hfold
      rw [foldl_set_found c it hc sm.length sm 0 idx c hnd hidxit] at hfold
      simp only [Nat.zero_add] at hfold
      exact ⟨i, _, hfold, rfl, rfl, rfl⟩
  · -- clear behavior: a previously annotated field not in the new model
    intro f hfprev hfnot
    have hne' : s.sortedColFields ≠ [] ∨ sm ≠ [] := Or.inl (List.ne_nil_of_mem hfprev)
    obtain ⟨i, c, hi, hc⟩ := exists_getElem?_of_mem_presentFields _ _ (hprevin f hfprev)
    have hfold := onSortedColumns_all_getElem_fold apiRef s sm hf hne' i
    rw [hi] at hfold
    simp only [Option.map_some'] at hfold
    rw [List.foldl_append] at hfold
    rw [show sm.enum = List.enumFrom 0 sm from rfl] at hfold
    rw [foldl_clear_mem c f hc s.sortedColFields c hfprev] at hfold
    have hnm : ∀ it ∈ sm, ¬ (jread c.field = JVal.val it.colId) := by
      intro it hit heq
      rw [hc] at heq
      have h2 : f = it.colId := JVal.val.inj heq
      exact hfnot (by rw [h2]; exact List.mem_map_of_mem SortItem.colId hit)
    rw [foldl_set_no_match c sm.length sm 0 _ hnm] at hfold
    exact ⟨i, _, hfold, rfl, rfl, rfl⟩
  · -- frame: columns matching neither the model nor the previous fields
    intro i c hi hnm hnp
    by_cases hboth : s.sortedColFields = [] ∧ sm = []
    · have hint : (onSortedColumns apiRef sm s).1.internal = s.internal := by
        rcases hboth with ⟨h1, h2⟩
        subst h2
        simp [onSortedColumns, h1]
      rw [hint]
      exact hi
    · rw [not_and_or] at hboth
      have hfold := onSortedColumns_all_getElem_fold apiRef s sm hf hboth i
      rw [hi] at hfold
      simp only [Option.map_some'] at hfold
      rw [List.foldl_append] at hfold
      rw [show sm.enum = List.enumFrom 0 sm from rfl] at hfold
      rw [foldl_clear_no_match c s.sortedColFields c hnp] at hfold
      rw [foldl_set_no_match c sm.length sm 0 c hnm] at hfold
      exact hfold
  · -- the memory is emptied by the empty model
    rw [onSortedColumns_sortedColFields]
    rfl
  · -- the empty model clears every field of the previous (nonempty) model
    intro it hmemsm
    have hne' : s.sortedColFields ≠ [] ∨ sm ≠ [] := Or.inr (List.ne_nil_of_mem hmemsm)
    have hs1f : (onSortedColumns apiRef sm s).1.sortedColFields
        = List.map SortItem.colId sm := onSortedColumns_sortedColFields apiRef sm s
    have hs1pf : presentFields (onSortedColumns apiRef sm s).1.internal.all
        = presentFields s.internal.all := by
      rw [onSortedColumns_internal_eq apiRef s sm hne']
      exact getUpdatedColumnState_presentFields s.internal _
    have hmempf : it.colId ∈ presentFields (onSortedColumns apiRef sm s).1.internal.all := by
      rw [hs1pf]
      exact hin it hmemsm
    obtain ⟨i, c1, hi1, hc1⟩ := exists_getElem?_of_mem_presentFields _ _ hmempf
    have hf1 : (presentFields (onSortedColumns apiRef sm s).1.internal.all).Nodup := by
      rw [hs1pf]
      exact hf
    have hne2 : (onSortedColumns apiRef sm s).1.sortedColFields ≠ []
        ∨ ([] : List SortItem) ≠ [] := by
      refine Or.inl ?_
      rw [hs1f]
      intro hcontra
      exact List.ne_nil_of_mem hmemsm (List.map_eq_nil_iff.mp hcontra)
    have hfold := onSortedColumns_all_getElem_fold apiRef
      (onSortedColumns apiRef sm s).1 [] hf1 hne2 i
    rw [hi1] at hfold
    simp only [Option.map_some'] at hfold
    simp only [List.enum_nil, List.map_nil, List.append_nil] at hfold
    rw [hs1f] at hfold
    rw [foldl_clear_mem c1 it.colId hc1 (List.map SortItem.colId sm) c1
      (List.mem_map_of_mem SortItem.colId hmemsm)] at hfold
    exact ⟨i, _, hfold, rfl, rfl, rfl⟩

/-- Witness for C3 at a consecutive sort: the previous reaction annotated `b`
and `c` and the new model is `[a asc, c desc]`; the single update re-sets `c`
with direction `desc` and priority `2` (its clear-patch overridden) and clears
`b` to a `null` direction and an `undefined` priority. -/
theorem claim_sort_reaction_witness :
    (∃ (i : Nat) (c' : ColDef),
        (onSortedColumns {}
          [⟨"a", JVal.val SortDir.asc⟩, ⟨"c", JVal.val SortDir.desc⟩]
          { internal := resetState exampleColumns {} {},
            sortedColFields := ["b", "c"] }).1.internal.all[i]? = some c'
        ∧ jread c'.field = JVal.val "c"
        ∧ jread c'.sortDirection = JVal.val SortDir.desc
        ∧ jread c'.sortIndex = JVal.val 2)
    ∧ (∃ (i : Nat) (c' : ColDef),
        (onSortedColumns {}
          [⟨"a", JVal.val SortDir.asc⟩, ⟨"c", JVal.val SortDir.desc⟩]
          { internal := resetState exampleColumns {} {},
            sortedColFields := ["b", "c"] }).1.internal.all[i]? = some c'
        ∧ jread c'.field = JVal.val "b"
        ∧ jread c'.sortDirection = JVal.null
        ∧ jread c'.sortIndex = JVal.undef) := by
  have h := claim_sort_reaction {}
    { internal := resetState exampleColumns {} {}, sortedColFields := ["b", "c"] }
    [⟨"a", JVal.val SortDir.asc⟩, ⟨"c", JVal.val SortDir.desc⟩]
    (by decide) (by decide) (by decide) (by decide)
  constructor
  · obtain ⟨i, c', h1, h2, h3, h4⟩ := h.2.2.1 1 ⟨"c", JVal.val SortDir.desc⟩ (by decide)
    refine ⟨i, c', h1, h2, h3, ?_⟩
    rw [h4]
    decide
  · exact h.2.2.2.1 "b" (by decide) (by decide)

end GridColumns
